import Mathlib

/-!
Verification of the BibTeX field-rewriting core: the author-list collapsing
pass (`bib_et_al.py`), the url-field removal pass (`strip_bib_urls.py`) and
the composing pipeline (`process_bib.py`).

Documents are embedded as `List Char`; indices are `Nat`.  Python's
character classes are embedded over the character set these tools deal with:
`pyIsSpace` covers the ASCII/Latin-1 part of `str.isspace`, `pyIsAlnum` the
ASCII part of `str.isalnum`, `pyToLower` the ASCII part of `str.lower`.
Each scanning loop of the source advances its index strictly, so loops that
jump (`pos = idx + 1`, `idx = end`) are embedded with an explicit fuel
parameter that decreases by one per iteration; the top-level entry points
instantiate the fuel at `length + 1`, which is sufficient because the index
grows by at least one per iteration (fuel-sufficiency lemmas below make the
embedded functions' independence from the chosen fuel precise).
-/

/-- Character set of Python's `str.isspace` restricted to ASCII / Latin-1. -/
def pyIsSpace (c : Char) : Bool :=
  c == ' ' || c == '\t' || c == '\n' || c == '\r' ||
  c == '\x0b' || c == '\x0c' ||
  (0x1c ≤ c.toNat && c.toNat ≤ 0x1f) || c.toNat == 0x85 || c.toNat == 0xa0

/-- Python's `str.isalnum` restricted to ASCII. -/
def pyIsAlnum (c : Char) : Bool :=
  c.isAlpha || c.isDigit

/-- Python's `str.lower`, per character, restricted to ASCII. -/
def pyToLower (c : Char) : Char :=
  c.toLower

/-- `text.lower()` on a whole document. -/
def lowerStr (text : List Char) : List Char :=
  text.map pyToLower

/-- Python's `str.strip()`: drop `pyIsSpace` characters from both ends. -/
def pyStrip (l : List Char) : List Char :=
  ((l.dropWhile pyIsSpace).reverse.dropWhile pyIsSpace).reverse

/-- `text[a:b]` on a `List Char` (Python slice with `0 ≤ a ≤ b`). -/
def sliceOf (text : List Char) (a b : Nat) : List Char :=
  (text.drop a).take (b - a)

/-- Index just past the whitespace run starting at `j`
(the `while j < n and text[j].isspace(): j += 1` idiom). -/
def skipWs (text : List Char) (j : Nat) : Nat :=
  j + ((text.drop j).takeWhile pyIsSpace).length

/-- First index `≥ 0` (relative) where `needle` occurs in `l`; `none` if it
does not occur.  `str.find(needle, pos)` is `relFind` on `text.drop pos`,
shifted by `pos` (the needles used by the source are non-empty). -/
def relFind (needle : List Char) : List Char → Option Nat
  | [] => none
  | c :: cs =>
    if needle.isPrefixOf (c :: cs) then some 0
    else (relFind needle cs).map (· + 1)

/-- Relative index of the brace closing a `{`-delimited value: scanning from
nesting level `level ≥ 1`, the index of the `}` that brings the level to 0
(`find_matching_brace` / the brace branch of `find_next_author_field`). -/
def braceClose : List Char → Nat → Option Nat
  | [], _ => none
  | c :: cs, level =>
    if c = '{' then (braceClose cs (level + 1)).map (· + 1)
    else if c = '}' then
      if level = 1 then some 0 else (braceClose cs (level - 1)).map (· + 1)
    else (braceClose cs level).map (· + 1)

/-- Relative index of the next quote not preceded by an odd run of
backslashes (`find_matching_quote` / the quote branch of
`find_next_author_field`), starting with escape flag `escaped`. -/
def quoteClose : List Char → Bool → Option Nat
  | [], _ => none
  | c :: cs, escaped =>
    if c = '"' && !escaped then some 0
    else if c = '\\' && !escaped then (quoteClose cs true).map (· + 1)
    else (quoteClose cs false).map (· + 1)

/-- Bare-value scan of `find_value_end` (the `url` remover's path for
values that are neither brace- nor quote-delimited): relative index of the
first top-level comma or underflowing `}`, or the length of the remainder
if the scan reaches the end of the text. -/
def bareScan : List Char → Nat → Bool → Bool → Nat
  | [], _, _, _ => 0
  | c :: cs, depth, inQuote, escaped =>
    if inQuote then
      let inQuote' := !(c = '"' && !escaped)
      let escaped' := c = '\\' && !escaped
      1 + bareScan cs depth inQuote' escaped'
    else if c = '"' then 1 + bareScan cs depth true false
    else if c = '{' then 1 + bareScan cs (depth + 1) false escaped
    else if c = '}' then
      if depth = 0 then 0 else 1 + bareScan cs (depth - 1) false escaped
    else if c = ',' && depth == 0 then 0
    else 1 + bareScan cs depth false escaped

/-- `is_word_boundary` of `bib_et_al.py`: the previous character is absent
or neither alphanumeric nor an underscore. -/
def is_word_boundary (prev : Option Char) : Bool :=
  match prev with
  | none => true
  | some c => !(pyIsAlnum c || c = '_')

/-- One candidate-retry loop of `find_next_author_field`, with explicit
fuel (the source loop advances `pos` by at least one per iteration).
Returns `(field_start, value_start, value_end, delimiter, value)`. -/
def findAuthorF (content : List Char) : Nat → Nat → Option (Nat × Nat × Nat × Char × List Char)
  | 0, _ => none
  | fuel + 1, pos =>
    match (relFind ['a', 'u', 't', 'h', 'o', 'r'] ((lowerStr content).drop pos)).map (· + pos) with
    | none => none
    | some idx =>
      let prev : Option Char := if idx = 0 then none else content.get? (idx - 1)
      if !is_word_boundary prev then findAuthorF content fuel (idx + 1)
      else
        let j := skipWs content (idx + 6)
        if content.get? j ≠ some '=' then findAuthorF content fuel (idx + 1)
        else
          let j2 := skipWs content (j + 1)
          match content.get? j2 with
          | none => none
          | some d =>
            if d ≠ '{' ∧ d ≠ '"' then findAuthorF content fuel (idx + 1)
            else
              let vs := j2 + 1
              if d = '{' then
                match braceClose (content.drop vs) 1 with
                | none => none
                | some rel => some (idx, vs, vs + rel, '{', sliceOf content vs (vs + rel))
              else
                match quoteClose (content.drop vs) false with
                | none => none
                | some rel => some (idx, vs, vs + rel, '"', sliceOf content vs (vs + rel))

/-- `find_next_author_field content start_index` with sufficient fuel. -/
def find_next_author_field (content : List Char) (start_index : Nat) :
    Option (Nat × Nat × Nat × Char × List Char) :=
  findAuthorF content (content.length + 1) start_index

/-- `matches_and_at` inside `split_authors_top_level`: 3 when a
whitespace-bounded, case-insensitive `and` starts at `index`, else 0. -/
def matches_and_at (s : List Char) (index : Nat) : Nat :=
  if index + 3 > s.length then 0
  else if lowerStr (sliceOf s index (index + 3)) ≠ ['a', 'n', 'd'] then 0
  else
    let prevOk := index = 0 ∨ (∃ c, s.get? (index - 1) = some c ∧ pyIsSpace c)
    let nextOk := index + 3 ≥ s.length ∨ (∃ c, s.get? (index + 3) = some c ∧ pyIsSpace c)
    if prevOk ∧ nextOk then 3 else 0

/-- The scanning loop of `split_authors_top_level`, with explicit fuel
(each iteration advances `i` by at least one). -/
def splitLoop (s : List Char) : Nat → Nat → Nat → List Char → List (List Char)
  | 0, _, _, buf =>
    let tail := pyStrip buf
    if tail = [] then [] else [tail]
  | fuel + 1, i, level, buf =>
    match s.get? i with
    | none =>
      let tail := pyStrip buf
      if tail = [] then [] else [tail]
    | some c =>
      if c = '{' then splitLoop s fuel (i + 1) (level + 1) (buf ++ [c])
      else if c = '}' then splitLoop s fuel (i + 1) (level - 1) (buf ++ [c])
      else if level = 0 ∧ matches_and_at s i = 3 then
        let author := pyStrip buf
        let rest := splitLoop s fuel (skipWs s (i + 3)) level []
        if author = [] then rest else author :: rest
      else splitLoop s fuel (i + 1) level (buf ++ [c])

/-- `split_authors_top_level` of `bib_et_al.py`. -/
def split_authors_top_level (author_value : List Char) : List (List Char) :=
  splitLoop author_value (author_value.length + 1) 0 0 []

/-- Whether in `s`, at position `i`, the regular expression
`\band\s+others\b` (case-insensitive) matches: `and` at a word boundary,
at least one whitespace character, then `others` at a word boundary. -/
def andOthersAt (s : List Char) (i : Nat) : Bool :=
  let isw : Char → Bool := fun c => pyIsAlnum c || c = '_'
  let w := ((s.drop (i + 3)).takeWhile pyIsSpace).length
  decide (lowerStr (sliceOf s i (i + 3)) = ['a', 'n', 'd']) &&
  (i == 0 || !((s.get? (i - 1)).elim false isw)) &&
  decide (1 ≤ w) &&
  decide (lowerStr (sliceOf s (i + 3 + w) (i + 9 + w)) = ['o', 't', 'h', 'e', 'r', 's']) &&
  (decide (i + 9 + w ≥ s.length) || !((s.get? (i + 9 + w)).elim false isw))

/-- `author_already_others`: `re.search(r"\band\s+others\b", v, IGNORECASE)`
finds a match somewhere in the value. -/
def author_already_others (author_value : List Char) : Bool :=
  (List.range author_value.length).any (andOthersAt author_value)

/-- `transform_author_value_if_needed` of `bib_et_al.py`. -/
def transform_author_value_if_needed (author_value : List Char) : Option (List Char) :=
  if author_already_others author_value then none
  else
    let authors := split_authors_top_level author_value
    if authors.length ≤ 6 then none
    else
      let first_author := pyStrip (authors.headI)
      if first_author = [] then none
      else some (first_author ++ (" and others").data)

/-- The rewriting loop of `process_bibtex`, with explicit fuel (each
iteration sets `i` to `value_end + 1 > i`).  `cursor` is the index up to
which the input has already been copied; the function returns the assembled
remainder of the output together with the number of fields rewritten from
this state on. -/
def processLoop (content : List Char) : Nat → Nat → Nat → List Char × Nat
  | 0, _, cursor => (content.drop cursor, 0)
  | fuel + 1, i, cursor =>
    match find_next_author_field content i with
    | none => (content.drop cursor, 0)
    | some (_, vs, ve, _, v) =>
      match transform_author_value_if_needed v with
      | none => processLoop content fuel (ve + 1) cursor
      | some r =>
        let rest := processLoop content fuel (ve + 1) ve
        (sliceOf content cursor vs ++ r ++ rest.1, rest.2 + 1)

/-- `process_bibtex` of `bib_et_al.py`: returns `(new_content, num_modified)`. -/
def process_bibtex (content : List Char) : List Char × Nat :=
  processLoop content (content.length + 1) 0 0

/-- The list of edit spans `(value_start, value_end)` the author pass
replaces, mirroring `processLoop`. -/
def authorSpansLoop (content : List Char) : Nat → Nat → List (Nat × Nat)
  | 0, _ => []
  | fuel + 1, i =>
    match find_next_author_field content i with
    | none => []
    | some (_, vs, ve, _, v) =>
      match transform_author_value_if_needed v with
      | none => authorSpansLoop content fuel (ve + 1)
      | some _ => (vs, ve) :: authorSpansLoop content fuel (ve + 1)

/-- Edit spans of the author pass over a whole document. -/
def authorSpans (content : List Char) : List (Nat × Nat) :=
  authorSpansLoop content (content.length + 1) 0

/-- `value_start` of the first field `processLoop` will rewrite from state
`i`, or `content.length` if it rewrites none: up to this index the output
is a verbatim copy of the input. -/
def firstEditVS (content : List Char) : Nat → Nat → Nat
  | 0, _ => content.length
  | fuel + 1, i =>
    match find_next_author_field content i with
    | none => content.length
    | some (_, vs, ve, _, v) =>
      match transform_author_value_if_needed v with
      | none => firstEditVS content fuel (ve + 1)
      | some _ => vs

/-- `is_field_name` of `strip_bib_urls.py` (the url pass's word-boundary
check; note the extra backslash rejection on the preceding character). -/
def is_field_name (text : List Char) (index length : Nat) : Bool :=
  let beforeOk :=
    match (if index = 0 then none else text.get? (index - 1)) with
    | none => true
    | some b => !(pyIsAlnum b || b = '_' || b = '\\')
  let afterOk :=
    match text.get? (index + length) with
    | none => true
    | some a => !(pyIsAlnum a || a = '_')
  beforeOk && afterOk

/-- `find_line_start`: index of the first character of the line containing
`index` (one past the last `\n` or `\r` strictly before `index`, as
computed by `max(text.rfind('\n', 0, index), text.rfind('\r', 0, index))`;
embedded as the equivalent backward scan). -/
def find_line_start (text : List Char) : Nat → Nat
  | 0 => 0
  | i + 1 =>
    if text.get? i = some '\n' ∨ text.get? i = some '\r' then i + 1
    else find_line_start text i

/-- `consume_linebreak`: consume one CR, LF, or CRLF starting at `pos`. -/
def consume_linebreak (text : List Char) (pos : Nat) : Nat :=
  if text.get? pos = some '\r' then
    if text.get? (pos + 1) = some '\n' then pos + 2 else pos + 1
  else if text.get? pos = some '\n' then pos + 1
  else pos

/-- `find_value_end` of `strip_bib_urls.py`: index immediately after the
value starting at `start` (excluding separators), `none` when a brace- or
quote-delimited value is unterminated.  `start < text.length` at every
call site. -/
def find_value_end (text : List Char) (start : Nat) : Option Nat :=
  if text.get? start = some '{' then
    (braceClose (text.drop (start + 1)) 1).map (fun rel => start + 1 + rel + 1)
  else if text.get? start = some '"' then
    (quoteClose (text.drop (start + 1)) false).map (fun rel => start + 1 + rel + 1)
  else
    some (start + bareScan (text.drop start) 0 false false)

/-- Skip spaces and tabs (the `while end < n and text[end] in ' \t'` idiom). -/
def skipSpTab (text : List Char) (j : Nat) : Nat :=
  j + ((text.drop j).takeWhile fun c => c = ' ' || c = '\t').length

/-- `compute_field_start`: extend the removal to the indentation at the
start of the line when the field is preceded on its line only by
whitespace. -/
def compute_field_start (text : List Char) (field_index : Nat) : Nat :=
  let line_start := find_line_start text field_index
  if pyStrip (sliceOf text line_start field_index) ≠ [] then field_index
  else line_start

/-- The `end` computation of `compute_field_bounds`: skip spaces/tabs after
the value, greedily consume an optional comma with further spaces/tabs, and
one line break. -/
def computeFieldEnd (text : List Char) (value_end : Nat) : Nat :=
  if text.get? (skipSpTab text value_end) = some ',' then
    consume_linebreak text (skipSpTab text (skipSpTab text value_end + 1))
  else consume_linebreak text (skipSpTab text value_end)

/-- `compute_field_bounds` of `strip_bib_urls.py`: slice bounds to remove
for a candidate `url` at `field_index`, or `none` to reject
(`skipWs text (field_index + 3)` is the source's `j`, and
`skipWs text (j + 1)` its `value_start`). -/
def compute_field_bounds (text : List Char) (field_index : Nat) : Option (Nat × Nat) :=
  if !is_field_name text field_index 3 then none
  else if text.get? (skipWs text (field_index + 3)) ≠ some '=' then none
  else if text.get? (skipWs text (skipWs text (field_index + 3) + 1)) = none then none
  else
    match find_value_end text (skipWs text (skipWs text (field_index + 3) + 1)) with
    | none => none
    | some value_end =>
      some (compute_field_start text field_index, computeFieldEnd text value_end)

/-- The candidate loop of `locate_url_field_ranges`, with explicit fuel
(each iteration advances `idx` by at least one). -/
def locateLoop (text : List Char) : Nat → Nat → List (Nat × Nat)
  | 0, _ => []
  | fuel + 1, idx =>
    if idx < text.length then
      match (relFind ['u', 'r', 'l'] ((lowerStr text).drop idx)).map (· + idx) with
      | none => []
      | some candidate =>
        match compute_field_bounds text candidate with
        | none => locateLoop text fuel (candidate + 1)
        | some (s, e) => (s, e) :: locateLoop text fuel e
    else []

/-- `locate_url_field_ranges` of `strip_bib_urls.py`. -/
def locate_url_field_ranges (text : List Char) : List (Nat × Nat) :=
  locateLoop text (text.length + 1) 0

/-- The piece-assembling loop of `strip_url_fields`: copy `[cursor, start)`
for each range (skipping any range that starts before the cursor — the
source's overlap guard) and the tail after the last range. -/
def stripPieces (text : List Char) : List (Nat × Nat) → Nat → List Char
  | [], cursor => text.drop cursor
  | (s, e) :: rest, cursor =>
    if s < cursor then stripPieces text rest cursor
    else sliceOf text cursor s ++ stripPieces text rest e

/-- `strip_url_fields` of `strip_bib_urls.py`: returns the text with every
located url-field range removed, and the number of ranges. -/
def strip_url_fields (content : List Char) : List Char × Nat :=
  let ranges := locate_url_field_ranges content
  (stripPieces content ranges 0, ranges.length)

/-- `clean_bib_content` of `process_bib.py`: url stripping first, author
compaction second; returns `(cleaned, urls_removed, authors_modified)`. -/
def clean_bib_content (content : List Char) : List Char × Nat × Nat :=
  let p1 := strip_url_fields content
  let p2 := process_bibtex p1.1
  (p2.1, p1.2, p2.2)

/-! ### Basic facts about the scanning primitives -/

theorem relFind_bound {needle l : List Char} {r : Nat} (h : relFind needle l = some r) :
    r + needle.length ≤ l.length := by
  induction l generalizing r with
  | nil => simp [relFind] at h
  | cons c cs ih =>
    rw [relFind] at h
    by_cases hp : needle.isPrefixOf (c :: cs)
    · simp [hp] at h
      subst h
      simpa using (List.isPrefixOf_iff_prefix.mp hp).length_le
    · simp [hp] at h
      obtain ⟨r', hr', rfl⟩ := h
      have := ih hr'
      simp
      omega

theorem relFind_prefix {needle l : List Char} {r : Nat} (h : relFind needle l = some r) :
    needle <+: l.drop r := by
  induction l generalizing r with
  | nil => simp [relFind] at h
  | cons c cs ih =>
    rw [relFind] at h
    by_cases hp : needle.isPrefixOf (c :: cs)
    · simp [hp] at h
      subst h
      simpa using List.isPrefixOf_iff_prefix.mp hp
    · simp [hp] at h
      obtain ⟨r', hr', rfl⟩ := h
      simpa using ih hr'

theorem braceClose_bound {l : List Char} {lv r : Nat} (h : braceClose l lv = some r) :
    r < l.length ∧ l.get? r = some '}' := by
  induction l generalizing lv r with
  | nil => simp [braceClose] at h
  | cons c cs ih =>
    rw [braceClose] at h
    by_cases h1 : c = '{'
    · simp [h1] at h
      obtain ⟨r', hr', rfl⟩ := h
      obtain ⟨hl, hg⟩ := ih hr'
      exact ⟨by simpa using Nat.succ_lt_succ hl, by simpa using hg⟩
    · by_cases h2 : c = '}'
      · by_cases h3 : lv = 1
        · simp [h1, h2, h3] at h
          subst h
          subst h2
          simp
        · simp [h1, h2, h3] at h
          obtain ⟨r', hr', rfl⟩ := h
          obtain ⟨hl, hg⟩ := ih hr'
          exact ⟨by simpa using Nat.succ_lt_succ hl, by simpa using hg⟩
      · simp [h1, h2] at h
        obtain ⟨r', hr', rfl⟩ := h
        obtain ⟨hl, hg⟩ := ih hr'
        exact ⟨by simpa using Nat.succ_lt_succ hl, by simpa using hg⟩

theorem quoteClose_bound {l : List Char} {e : Bool} {r : Nat} (h : quoteClose l e = some r) :
    r < l.length ∧ l.get? r = some '"' := by
  induction l generalizing e r with
  | nil => simp [quoteClose] at h
  | cons c cs ih =>
    rw [quoteClose] at h
    by_cases h1 : (c = '"' && !e : Bool)
    · simp [h1] at h
      subst h
      simp at h1
      simp [h1.1]
    · by_cases h2 : (c = '\\' && !e : Bool)
      · simp [h1, h2] at h
        obtain ⟨r', hr', rfl⟩ := h
        obtain ⟨hl, hg⟩ := ih hr'
        exact ⟨by simpa using Nat.succ_lt_succ hl, by simpa using hg⟩
      · simp [h1, h2] at h
        obtain ⟨r', hr', rfl⟩ := h
        obtain ⟨hl, hg⟩ := ih hr'
        exact ⟨by simpa using Nat.succ_lt_succ hl, by simpa using hg⟩

theorem bareScan_le (l : List Char) (d : Nat) (q e : Bool) :
    bareScan l d q e ≤ l.length := by
  induction l generalizing d q e with
  | nil => simp [bareScan]
  | cons c cs ih =>
    rw [bareScan]
    simp only [List.length_cons, Nat.one_add]
    repeat' split
    all_goals first
      | exact Nat.succ_le_succ (ih _ _ _)
      | exact Nat.zero_le _

theorem bareScan_stop (l : List Char) (d : Nat) (q e : Bool) :
    bareScan l d q e = l.length ∨
      l.get? (bareScan l d q e) = some '}' ∨ l.get? (bareScan l d q e) = some ',' := by
  induction l generalizing d q e with
  | nil => simp [bareScan]
  | cons c cs ih =>
    rw [bareScan]
    by_cases hq : q
    · simpa [hq, Nat.one_add] using ih d _ _
    · by_cases h1 : c = '"'
      · simpa [hq, h1, Nat.one_add] using ih d true false
      · by_cases h2 : c = '{'
        · simpa [hq, h1, h2, Nat.one_add] using ih (d + 1) false e
        · by_cases h3 : c = '}'
          · by_cases h4 : d = 0
            · simp [hq, h1, h2, h3, h4]
            · simpa [hq, h1, h2, h3, h4, Nat.one_add] using ih (d - 1) false e
          · by_cases h5 : (c = ',' && d == 0 : Bool)
            · simp at h5
              simp [hq, h1, h2, h3, h5.1, h5.2]
            · simpa [hq, h1, h2, h3, h5, Nat.one_add] using ih d false e

/-- The character at the end of a maximal `p`-run is not a `p`-character. -/
theorem get_after_takeWhile {p : Char → Bool} {l : List Char} {c : Char}
    (h : l.get? (l.takeWhile p).length = some c) : p c = false := by
  induction l with
  | nil => simp at h
  | cons a as ih =>
    by_cases hp : p a
    · rw [List.takeWhile_cons_of_pos hp] at h
      exact ih (by simpa using h)
    · rw [List.takeWhile_cons_of_neg hp] at h
      simp at h
      subst h
      simpa using hp

/-- Characters strictly inside a maximal `p`-run are `p`-characters. -/
theorem get_inside_takeWhile {p : Char → Bool} {l : List Char} {k : Nat}
    (h : k < (l.takeWhile p).length) : ∃ c, l.get? k = some c ∧ p c = true := by
  induction l generalizing k with
  | nil => simp at h
  | cons a as ih =>
    by_cases hp : p a
    · rw [List.takeWhile_cons_of_pos hp] at h
      match k with
      | 0 => exact ⟨a, by simp, hp⟩
      | k + 1 =>
        obtain ⟨c, hc, hpc⟩ := ih (by simpa using h)
        exact ⟨c, by simpa using hc, hpc⟩
    · rw [List.takeWhile_cons_of_neg hp] at h
      simp at h

theorem skipWs_ge (text : List Char) (j : Nat) : j ≤ skipWs text j :=
  Nat.le_add_right _ _

theorem skipWs_get {text : List Char} {j : Nat} {c : Char}
    (h : text.get? (skipWs text j) = some c) : pyIsSpace c = false := by
  rw [skipWs, ← List.get?_drop] at h
  exact get_after_takeWhile h

theorem skipWs_inside {text : List Char} {j k : Nat} (h1 : j ≤ k) (h2 : k < skipWs text j) :
    ∃ c, text.get? k = some c ∧ pyIsSpace c = true := by
  rw [skipWs] at h2
  obtain ⟨c, hc, hpc⟩ := get_inside_takeWhile (p := pyIsSpace) (l := text.drop j) (k := k - j)
    (by omega)
  rw [List.get?_drop] at hc
  exact ⟨c, by rwa [Nat.add_sub_cancel' h1] at hc, hpc⟩

theorem skipSpTab_ge (text : List Char) (j : Nat) : j ≤ skipSpTab text j :=
  Nat.le_add_right _ _

theorem skipSpTab_get {text : List Char} {j : Nat} {c : Char}
    (h : text.get? (skipSpTab text j) = some c) : (c = ' ' ∨ c = '\t') → False := by
  rw [skipSpTab, ← List.get?_drop] at h
  have := get_after_takeWhile h
  simp at this
  rintro (rfl | rfl) <;> simp_all

theorem skipSpTab_inside {text : List Char} {j k : Nat} (h1 : j ≤ k) (h2 : k < skipSpTab text j) :
    text.get? k = some ' ' ∨ text.get? k = some '\t' := by
  rw [skipSpTab] at h2
  obtain ⟨c, hc, hpc⟩ := get_inside_takeWhile (p := fun c => c = ' ' || c = '\t')
    (l := text.drop j) (k := k - j) (by omega)
  rw [List.get?_drop, Nat.add_sub_cancel' h1] at hc
  simp at hpc
  rcases hpc with rfl | rfl
  · exact Or.inl hc
  · exact Or.inr hc

theorem find_line_start_le (text : List Char) (i : Nat) : find_line_start text i ≤ i := by
  induction i with
  | zero => simp [find_line_start]
  | succ i ih =>
    rw [find_line_start]
    split
    · omega
    · omega

theorem find_line_start_no_break {text : List Char} {i k : Nat}
    (h1 : find_line_start text i ≤ k) (h2 : k < i) :
    ¬(text.get? k = some '\n' ∨ text.get? k = some '\r') := by
  induction i with
  | zero => omega
  | succ i ih =>
    rw [find_line_start] at h1
    split at h1
    · omega
    · rcases Nat.lt_or_ge k i with hk | hk
      · exact ih h1 hk
      · have : k = i := by omega
        subst this
        assumption

theorem find_line_start_break {text : List Char} {i : Nat}
    (h : 0 < find_line_start text i) :
    text.get? (find_line_start text i - 1) = some '\n' ∨
      text.get? (find_line_start text i - 1) = some '\r' := by
  induction i with
  | zero => simp [find_line_start] at h
  | succ i ih =>
    rw [find_line_start] at h ⊢
    by_cases hb : text.get? i = some '\n' ∨ text.get? i = some '\r'
    · rw [if_pos hb]
      simpa using hb
    · rw [if_neg hb] at h ⊢
      exact ih h

/-! ### Facts about `pyStrip` -/

theorem dropWhile_head_false {p : Char → Bool} {l t : List Char} {c : Char}
    (h : l.dropWhile p = c :: t) : p c = false := by
  induction l with
  | nil => simp at h
  | cons a as ih =>
    by_cases hp : p a
    · rw [List.dropWhile_cons_of_pos hp] at h
      exact ih h
    · rw [List.dropWhile_cons_of_neg hp] at h
      cases h
      simpa using hp

theorem dropWhile_idem (p : Char → Bool) (l : List Char) :
    (l.dropWhile p).dropWhile p = l.dropWhile p := by
  cases h : l.dropWhile p with
  | nil => simp
  | cons c t =>
    have hc : ¬p c = true := by simp [dropWhile_head_false h]
    rw [List.dropWhile_cons_of_neg hc]

theorem pyStrip_prefix_core (l : List Char) :
    ((l.reverse.dropWhile pyIsSpace).reverse) <+: l := by
  have h1 : l.reverse.dropWhile pyIsSpace <:+ l.reverse := List.dropWhile_suffix _
  have := List.reverse_prefix.mpr h1
  simpa using this

theorem pyStrip_idem (l : List Char) : pyStrip (pyStrip l) = pyStrip l := by
  set y := l.dropWhile pyIsSpace with hy
  have hstrip : pyStrip l = (y.reverse.dropWhile pyIsSpace).reverse := rfl
  have hstep1 : (pyStrip l).dropWhile pyIsSpace = pyStrip l := by
    cases hc : pyStrip l with
    | nil => simp
    | cons c t =>
      have hpre : (y.reverse.dropWhile pyIsSpace).reverse <+: y := pyStrip_prefix_core _
      rw [← hstrip, hc] at hpre
      obtain ⟨s, hs⟩ := hpre
      have hy' : y = c :: (t ++ s) := by rw [← hs]; simp
      have hcfalse : pyIsSpace c = false :=
        dropWhile_head_false (show l.dropWhile pyIsSpace = c :: (t ++ s) by rw [← hy]; exact hy')
      rw [List.dropWhile_cons_of_neg (by simp [hcfalse])]
  have hstep2 : (pyStrip l).reverse.dropWhile pyIsSpace = (pyStrip l).reverse := by
    rw [hstrip]
    simp only [List.reverse_reverse]
    exact dropWhile_idem _ _
  show ((((pyStrip l).dropWhile pyIsSpace).reverse).dropWhile pyIsSpace).reverse = pyStrip l
  rw [hstep1, hstep2, List.reverse_reverse]

theorem pyStrip_eq_nil_iff {l : List Char} :
    pyStrip l = [] ↔ ∀ c ∈ l, pyIsSpace c = true := by
  constructor
  · intro h c hc
    have h2 : (l.dropWhile pyIsSpace).reverse.dropWhile pyIsSpace = [] := by
      have := congrArg List.reverse h
      simpa [pyStrip] using this
    rw [List.dropWhile_eq_nil_iff] at h2
    by_cases hmem : c ∈ l.dropWhile pyIsSpace
    · exact h2 c (by simpa using hmem)
    · have hsplit : l = l.takeWhile pyIsSpace ++ l.dropWhile pyIsSpace :=
        (List.takeWhile_append_dropWhile _ _).symm
      rw [hsplit] at hc
      rcases List.mem_append.mp hc with h3 | h3
      · exact List.mem_takeWhile_imp h3
      · exact absurd h3 hmem
  · intro h
    have h1 : l.dropWhile pyIsSpace = [] := List.dropWhile_eq_nil_iff.mpr (fun c hc => h c hc)
    simp [pyStrip, h1]

theorem pyStrip_ne_nil_of_mem {l : List Char} {c : Char}
    (hc : c ∈ l) (hns : pyIsSpace c = false) : pyStrip l ≠ [] := by
  intro h
  have := pyStrip_eq_nil_iff.mp h c hc
  rw [this] at hns
  simp at hns

/-! ### Items produced by `split_authors_top_level` -/

theorem splitLoop_item_facts {s : List Char} :
    ∀ fuel i level buf a, a ∈ splitLoop s fuel i level buf → pyStrip a = a ∧ a ≠ [] := by
  intro fuel
  induction fuel with
  | zero =>
    intro i level buf a ha
    rw [splitLoop] at ha
    split at ha
    · simp at ha
    · simp at ha
      subst ha
      exact ⟨pyStrip_idem _, by assumption⟩
  | succ fuel ih =>
    intro i level buf a ha
    rw [splitLoop] at ha
    cases hg : s.get? i with
    | none =>
      rw [hg] at ha
      simp only at ha
      split at ha
      · simp at ha
      · simp at ha
        subst ha
        exact ⟨pyStrip_idem _, by assumption⟩
    | some c =>
      rw [hg] at ha
      simp only at ha
      split at ha
      · exact ih _ _ _ _ ha
      · split at ha
        · exact ih _ _ _ _ ha
        · split at ha
          · split at ha
            · exact ih _ _ _ _ ha
            · rcases List.mem_cons.mp ha with rfl | ha'
              · exact ⟨pyStrip_idem _, by assumption⟩
              · exact ih _ _ _ _ ha'
          · exact ih _ _ _ _ ha

theorem split_item_facts {v a : List Char} (ha : a ∈ split_authors_top_level v) :
    pyStrip a = a ∧ a ≠ [] :=
  splitLoop_item_facts _ _ _ _ _ ha

/-! ### Shape facts about located author fields -/

theorem findAuthorF_facts {content : List Char} :
    ∀ fuel pos fs vs ve d v,
    findAuthorF content fuel pos = some (fs, vs, ve, d, v) →
    pos ≤ fs ∧ fs + 8 ≤ vs ∧ vs ≤ ve ∧ ve < content.length ∧
    v = sliceOf content vs ve ∧
    ((d = '{' ∧ content.get? ve = some '}') ∨ (d = '"' ∧ content.get? ve = some '"')) := by
  intro fuel
  induction fuel with
  | zero => intro pos fs vs ve d v h; simp [findAuthorF] at h
  | succ fuel ih =>
    intro pos fs vs ve d v h
    rw [findAuthorF] at h
    cases hrel : relFind ['a', 'u', 't', 'h', 'o', 'r'] ((lowerStr content).drop pos) with
    | none => rw [hrel] at h; simp at h
    | some r =>
      rw [hrel] at h
      simp only [Option.map_some'] at h
      have hjge : r + pos + 6 ≤ skipWs content (r + pos + 6) := skipWs_ge _ _
      have hj2ge : skipWs content (r + pos + 6) + 1 ≤
          skipWs content (skipWs content (r + pos + 6) + 1) := skipWs_ge _ _
      by_cases hb : (!is_word_boundary
          (if r + pos = 0 then none else content.get? (r + pos - 1)) : Bool)
      · rw [if_pos hb] at h
        obtain ⟨h1, hrest⟩ := ih _ _ _ _ _ _ h
        exact ⟨by omega, hrest⟩
      · rw [if_neg hb] at h
        by_cases he : content.get? (skipWs content (r + pos + 6)) ≠ some '='
        · rw [if_pos he] at h
          obtain ⟨h1, hrest⟩ := ih _ _ _ _ _ _ h
          exact ⟨by omega, hrest⟩
        · rw [if_neg he] at h
          cases hd : content.get? (skipWs content (skipWs content (r + pos + 6) + 1)) with
          | none => rw [hd] at h; simp at h
          | some dd =>
            rw [hd] at h
            simp only at h
            by_cases hdd : dd ≠ '{' ∧ dd ≠ '"'
            · rw [if_pos hdd] at h
              obtain ⟨h1, hrest⟩ := ih _ _ _ _ _ _ h
              exact ⟨by omega, hrest⟩
            · rw [if_neg hdd] at h
              by_cases hbr : dd = '{'
              · rw [if_pos hbr] at h
                cases hbc : braceClose
                    (content.drop (skipWs content (skipWs content (r + pos + 6) + 1) + 1)) 1 with
                | none => rw [hbc] at h; simp at h
                | some rel =>
                  rw [hbc] at h
                  simp only [Option.some.injEq, Prod.mk.injEq] at h
                  obtain ⟨rfl, rfl, rfl, rfl, rfl⟩ := h
                  obtain ⟨hlt, hget⟩ := braceClose_bound hbc
                  rw [List.length_drop] at hlt
                  rw [List.get?_drop] at hget
                  refine ⟨by omega, by omega, by omega, by omega, rfl, Or.inl ⟨rfl, ?_⟩⟩
                  exact hget
              · rw [if_neg hbr] at h
                cases hqc : quoteClose
                    (content.drop (skipWs content (skipWs content (r + pos + 6) + 1) + 1)) false with
                | none => rw [hqc] at h; simp at h
                | some rel =>
                  rw [hqc] at h
                  simp only [Option.some.injEq, Prod.mk.injEq] at h
                  obtain ⟨rfl, rfl, rfl, rfl, rfl⟩ := h
                  obtain ⟨hlt, hget⟩ := quoteClose_bound hqc
                  rw [List.length_drop] at hlt
                  rw [List.get?_drop] at hget
                  refine ⟨by omega, by omega, by omega, by omega, rfl, Or.inr ⟨rfl, ?_⟩⟩
                  exact hget

/-! ### The bytes of the input outside the edit spans -/

/-- Whether index `k` lies inside one of the half-open spans. -/
def inSpans (spans : List (Nat × Nat)) (k : Nat) : Bool :=
  spans.any fun r => r.1 ≤ k && k < r.2

/-- The characters of the suffix `l` of a document (starting at absolute
index `k`) whose indices lie outside every span. -/
def outsideSpans (spans : List (Nat × Nat)) : List Char → Nat → List Char
  | [], _ => []
  | c :: rest, k =>
    if inSpans spans k then outsideSpans spans rest (k + 1)
    else c :: outsideSpans spans rest (k + 1)

theorem outsideSpans_sublist (spans : List (Nat × Nat)) :
    ∀ (l : List Char) (k : Nat), List.Sublist (outsideSpans spans l k) l := by
  intro l
  induction l with
  | nil => intro k; simp [outsideSpans]
  | cons c cs ih =>
    intro k
    rw [outsideSpans]
    split
    · exact (ih (k + 1)).cons c
    · exact (ih (k + 1)).cons₂ c

theorem outsideSpans_nil : ∀ (l : List Char) (k : Nat), outsideSpans [] l k = l := by
  intro l
  induction l with
  | nil => intro k; simp [outsideSpans]
  | cons c cs ih => intro k; rw [outsideSpans]; simp [inSpans, ih]

theorem outsideSpans_mono (r : Nat × Nat) (spans : List (Nat × Nat)) :
    ∀ (l : List Char) (k : Nat), List.Sublist (outsideSpans (r :: spans) l k) (outsideSpans spans l k) := by
  intro l
  induction l with
  | nil => intro k; simp [outsideSpans]
  | cons c cs ih =>
    intro k
    rw [outsideSpans, outsideSpans]
    by_cases h1 : inSpans spans k
    · have h2 : inSpans (r :: spans) k := by simp [inSpans] at h1 ⊢; exact Or.inr h1
      rw [if_pos h2, if_pos h1]
      exact ih (k + 1)
    · rw [if_neg h1]
      split
      · exact (ih (k + 1)).cons c
      · exact (ih (k + 1)).cons₂ c

theorem outsideSpans_past {s e : Nat} (spans : List (Nat × Nat)) :
    ∀ (l : List Char) (k : Nat), e ≤ k →
    outsideSpans ((s, e) :: spans) l k = outsideSpans spans l k := by
  intro l
  induction l with
  | nil => intro k _; simp [outsideSpans]
  | cons c cs ih =>
    intro k hk
    rw [outsideSpans, outsideSpans]
    have h1 : inSpans ((s, e) :: spans) k = inSpans spans k := by
      simp [inSpans]
      intro _ h
      omega
    rw [h1, ih (k + 1) (by omega)]

theorem outsideSpans_inside {s e : Nat} (spans : List (Nat × Nat)) :
    ∀ (l : List Char) (k : Nat), s ≤ k → k ≤ e →
    outsideSpans ((s, e) :: spans) l k = outsideSpans ((s, e) :: spans) (l.drop (e - k)) e := by
  intro l
  induction l with
  | nil => intro k _ _; simp [outsideSpans]
  | cons c cs ih =>
    intro k hs he
    rcases Nat.eq_or_lt_of_le he with rfl | hlt
    · simp
    · rw [outsideSpans]
      have h1 : inSpans ((s, e) :: spans) k := by
        simp [inSpans]
        exact Or.inl ⟨hs, hlt⟩
      rw [if_pos h1, ih (k + 1) (by omega) (by omega)]
      congr 1
      have : e - k = (e - (k + 1)) + 1 := by omega
      rw [this]
      simp

theorem outsideSpans_take (spans : List (Nat × Nat)) {s : Nat} :
    ∀ (l : List Char) (k : Nat), k ≤ s →
    List.Sublist (outsideSpans spans l k)
      (l.take (s - k) ++ outsideSpans spans (l.drop (s - k)) s) := by
  intro l
  induction l with
  | nil => intro k _; simp [outsideSpans]
  | cons c cs ih =>
    intro k hk
    rcases Nat.eq_or_lt_of_le hk with rfl | hlt
    · simp
    · have hsk : s - k = (s - (k + 1)) + 1 := by omega
      rw [outsideSpans, hsk]
      simp only [List.take_succ_cons, List.drop_succ_cons]
      split
      · exact (ih (k + 1) (by omega)).cons c
      · exact (ih (k + 1) (by omega)).cons₂ c

/-! ### Bounds for the url-field boundary computation -/

theorem get?_lt {l : List Char} {n : Nat} {a : Char} (h : l.get? n = some a) :
    n < l.length := by
  by_contra hn
  rw [List.get?_eq_none.mpr (by omega)] at h
  exact Option.noConfusion h

theorem consume_linebreak_ge (text : List Char) (pos : Nat) :
    pos ≤ consume_linebreak text pos := by
  rw [consume_linebreak]
  repeat' split
  all_goals omega

theorem consume_linebreak_le {text : List Char} {pos : Nat} (h : pos ≤ text.length) :
    consume_linebreak text pos ≤ text.length := by
  rw [consume_linebreak]
  split
  · split
    · rename_i h2
      have := get?_lt h2
      omega
    · rename_i h2 _
      have := get?_lt h2
      omega
  · split
    · rename_i _ h2
      have := get?_lt h2
      omega
    · exact h

theorem skip_takeWhile_le {p : Char → Bool} {text : List Char} {j : Nat} (h : j ≤ text.length) :
    j + ((text.drop j).takeWhile p).length ≤ text.length := by
  have h1 : ((text.drop j).takeWhile p).length ≤ (text.drop j).length :=
    (List.takeWhile_prefix _).length_le
  rw [List.length_drop] at h1
  omega

theorem find_value_end_bounds {text : List Char} {start ve : Nat} (hst : start ≤ text.length)
    (h : find_value_end text start = some ve) : start ≤ ve ∧ ve ≤ text.length := by
  rw [find_value_end] at h
  split at h
  · cases hbc : braceClose (text.drop (start + 1)) 1 with
    | none => rw [hbc] at h; simp at h
    | some rel =>
      rw [hbc] at h
      simp at h
      obtain ⟨hlt, _⟩ := braceClose_bound hbc
      rw [List.length_drop] at hlt
      omega
  · split at h
    · cases hqc : quoteClose (text.drop (start + 1)) false with
      | none => rw [hqc] at h; simp at h
      | some rel =>
        rw [hqc] at h
        simp at h
        obtain ⟨hlt, _⟩ := quoteClose_bound hqc
        rw [List.length_drop] at hlt
        omega
    · simp at h
      have := bareScan_le (text.drop start) 0 false false
      rw [List.length_drop] at this
      omega

theorem computeFieldEnd_ge (text : List Char) (value_end : Nat) :
    value_end ≤ computeFieldEnd text value_end := by
  have h1 := skipSpTab_ge text value_end
  rw [computeFieldEnd]
  split
  · have h2 := skipSpTab_ge text (skipSpTab text value_end + 1)
    have h3 := consume_linebreak_ge text (skipSpTab text (skipSpTab text value_end + 1))
    omega
  · have h3 := consume_linebreak_ge text (skipSpTab text value_end)
    omega

theorem computeFieldEnd_le {text : List Char} {value_end : Nat} (h : value_end ≤ text.length) :
    computeFieldEnd text value_end ≤ text.length := by
  have hE1le : skipSpTab text value_end ≤ text.length := skip_takeWhile_le h
  rw [computeFieldEnd]
  split
  · rename_i hcm
    have hcmlt : skipSpTab text value_end < text.length := get?_lt hcm
    exact consume_linebreak_le (skip_takeWhile_le (by omega))
  · exact consume_linebreak_le hE1le

theorem compute_field_bounds_basic {text : List Char} {c s e : Nat}
    (h : compute_field_bounds text c = some (s, e)) :
    s = compute_field_start text c ∧ s ≤ c ∧ c + 4 ≤ e ∧ e ≤ text.length := by
  rw [compute_field_bounds] at h
  split at h
  · simp at h
  · split at h
    · simp at h
    · split at h
      · simp at h
      · rename_i hnb heq hnn
        push_neg at heq
        have hjge : c + 3 ≤ skipWs text (c + 3) := skipWs_ge _ _
        have hj2ge : skipWs text (c + 3) + 1 ≤ skipWs text (skipWs text (c + 3) + 1) :=
          skipWs_ge _ _
        have hj2lt : skipWs text (skipWs text (c + 3) + 1) < text.length := by
          rcases hg : text.get? (skipWs text (skipWs text (c + 3) + 1)) with _ | ch
          · exact absurd hg hnn
          · exact get?_lt hg
        cases hve : find_value_end text (skipWs text (skipWs text (c + 3) + 1)) with
        | none => rw [hve] at h; simp at h
        | some value_end =>
          rw [hve] at h
          simp only [Option.some.injEq, Prod.mk.injEq] at h
          obtain ⟨rfl, rfl⟩ := h
          obtain ⟨hvege, hvele⟩ := find_value_end_bounds (by omega) hve
          have hcfege := computeFieldEnd_ge text value_end
          have hcfele := computeFieldEnd_le hvele
          have hls := find_line_start_le text c
          refine ⟨rfl, ?_, by omega, hcfele⟩
          rw [compute_field_start]
          split
          · omega
          · exact hls

theorem locateLoop_wf {text : List Char} :
    ∀ fuel idx, ∀ r ∈ locateLoop text fuel idx, r.1 ≤ r.2 := by
  intro fuel
  induction fuel with
  | zero => intro idx r hr; simp [locateLoop] at hr
  | succ fuel ih =>
    intro idx r hr
    rw [locateLoop] at hr
    split at hr
    · cases hrel : (relFind ['u', 'r', 'l'] ((lowerStr text).drop idx)).map (· + idx) with
      | none => rw [hrel] at hr; simp at hr
      | some candidate =>
        rw [hrel] at hr
        simp only at hr
        cases hb : compute_field_bounds text candidate with
        | none =>
          rw [hb] at hr
          exact ih _ r hr
        | some se =>
          obtain ⟨s, e⟩ := se
          rw [hb] at hr
          rcases List.mem_cons.mp hr with rfl | hr'
          · have := compute_field_bounds_basic hb
            simp only
            omega
          · exact ih _ r hr'
    · simp at hr

theorem stripPieces_super {text : List Char} :
    ∀ (ranges : List (Nat × Nat)) (cursor : Nat), (∀ r ∈ ranges, r.1 ≤ r.2) →
    List.Sublist (outsideSpans ranges (text.drop cursor) cursor)
      (stripPieces text ranges cursor) := by
  intro ranges
  induction ranges with
  | nil =>
    intro cursor _
    rw [stripPieces, outsideSpans_nil]
  | cons r rest ih =>
    obtain ⟨s, e⟩ := r
    intro cursor hwf
    rw [stripPieces]
    by_cases hlt : s < cursor
    · rw [if_pos hlt]
      exact (outsideSpans_mono _ _ _ _).trans
        (ih cursor fun x hx => hwf x (List.mem_cons_of_mem _ hx))
    · rw [if_neg hlt]
      push_neg at hlt
      have hse : s ≤ e := hwf (s, e) (List.mem_cons_self _ _)
      have h1 := outsideSpans_take ((s, e) :: rest) (text.drop cursor) cursor hlt
      have hdd : (text.drop cursor).drop (s - cursor) = text.drop s := by
        rw [List.drop_drop]
        congr 1
        omega
      rw [hdd] at h1
      have h2 := outsideSpans_inside (s := s) (e := e) rest (text.drop s) s le_rfl hse
      have hdd2 : (text.drop s).drop (e - s) = text.drop e := by
        rw [List.drop_drop]
        congr 1
        omega
      rw [hdd2] at h2
      have h3 := outsideSpans_past (s := s) (e := e) rest (text.drop e) e le_rfl
      rw [h2, h3] at h1
      refine h1.trans ?_
      exact List.Sublist.append_left (ih e fun x hx => hwf x (List.mem_cons_of_mem _ hx)) _

theorem processLoop_super {content : List Char} :
    ∀ fuel i cursor, cursor ≤ i →
    List.Sublist (outsideSpans (authorSpansLoop content fuel i) (content.drop cursor) cursor)
      (processLoop content fuel i cursor).1 := by
  intro fuel
  induction fuel with
  | zero =>
    intro i cursor _
    rw [processLoop, authorSpansLoop, outsideSpans_nil]
  | succ fuel ih =>
    intro i cursor hci
    rw [processLoop, authorSpansLoop]
    cases hf : find_next_author_field content i with
    | none =>
      simp only
      rw [outsideSpans_nil]
    | some tup =>
      obtain ⟨fs, vs, ve, d, v⟩ := tup
      rw [find_next_author_field] at hf
      obtain ⟨hif, hfv, hvv, hvl, hvs, hdel⟩ := findAuthorF_facts _ _ _ _ _ _ _ hf
      cases ht : transform_author_value_if_needed v with
      | none =>
        simp only [ht]
        exact ih (ve + 1) cursor (by omega)
      | some r =>
        simp only [ht, sliceOf]
        have h1 := outsideSpans_take ((vs, ve) :: authorSpansLoop content fuel (ve + 1))
          (content.drop cursor) cursor (show cursor ≤ vs by omega)
        have hdd : (content.drop cursor).drop (vs - cursor) = content.drop vs := by
          rw [List.drop_drop]
          congr 1
          omega
        rw [hdd] at h1
        have h2 := outsideSpans_inside (s := vs) (e := ve) (authorSpansLoop content fuel (ve + 1))
          (content.drop vs) vs le_rfl hvv
        have hdd2 : (content.drop vs).drop (ve - vs) = content.drop ve := by
          rw [List.drop_drop]
          congr 1
          omega
        rw [hdd2] at h2
        have h3 := outsideSpans_past (s := vs) (e := ve) (authorSpansLoop content fuel (ve + 1))
          (content.drop ve) ve le_rfl
        rw [h2, h3] at h1
        refine h1.trans ?_
        have h4 := ih (ve + 1) ve (by omega)
        have h5 : List.Sublist (outsideSpans (authorSpansLoop content fuel (ve + 1))
            (content.drop ve) ve) (r ++ (processLoop content fuel (ve + 1) ve).1) :=
          h4.trans (List.sublist_append_right r _)
        simpa [List.append_assoc] using
          List.Sublist.append_left h5 (List.take (vs - cursor) (List.drop cursor content))

/-- C1: each rewriting pass returns an output in which every byte of the
input lying outside the edit spans (the replaced author value interiors for
`process_bibtex`, the removed url-field ranges for `strip_url_fields`)
appears unchanged and in order: the subsequence of input characters at
indices outside all spans is a sublist of the output. -/
theorem claim_C1 (content : List Char) :
    List.Sublist (outsideSpans (locate_url_field_ranges content) content 0)
      (strip_url_fields content).1 ∧
    List.Sublist (outsideSpans (authorSpans content) content 0)
      (process_bibtex content).1 := by
  constructor
  · have h := @stripPieces_super content (locate_url_field_ranges content) 0
      (fun r hr => locateLoop_wf _ _ r hr)
    rwa [List.drop_zero] at h
  · have h := @processLoop_super content (content.length + 1) 0 0 le_rfl
    rwa [List.drop_zero] at h

/-- C2: an author value is rewritten exactly when the already-collapsed
predicate is false and the top-level split has strictly more than six
items, and then the replacement is the trimmed first item followed by
`" and others"`; in every other case no edit is produced. -/
theorem claim_C2 (v : List Char) :
    transform_author_value_if_needed v =
      if author_already_others v = false ∧ 6 < (split_authors_top_level v).length then
        some (pyStrip ((split_authors_top_level v).headI) ++ (" and others").data)
      else none := by
  by_cases h1 : author_already_others v = true
  · simp [transform_author_value_if_needed, h1]
  · have h1' : author_already_others v = false := by simpa using h1
    by_cases h2 : (split_authors_top_level v).length ≤ 6
    · simp [transform_author_value_if_needed, h1', h2, Nat.not_lt.mpr h2]
    · have hne : split_authors_top_level v ≠ [] := by
        intro hn
        rw [hn] at h2
        simp at h2
      have hmem : (split_authors_top_level v).headI ∈ split_authors_top_level v := by
        cases hsp : split_authors_top_level v with
        | nil => exact absurd hsp hne
        | cons a t => simp
      obtain ⟨hstrip, hnn⟩ := split_item_facts hmem
      simp [transform_author_value_if_needed, h1', h2, hstrip, hnn, Nat.lt_of_not_le h2]

/-- C5: every item returned by `split_authors_top_level` is non-empty and
carries no leading or trailing whitespace, and the keyword is only split on
at brace depth zero: splitting `"{Smith and Jones} and Lee"` yields exactly
the two items `"{Smith and Jones}"` and `"Lee"`, in order. -/
theorem claim_C5 :
    (∀ (v a : List Char), a ∈ split_authors_top_level v → a ≠ [] ∧ pyStrip a = a) ∧
    split_authors_top_level (String.data "\x7bSmith and Jones\x7d and Lee") =
      [String.data "\x7bSmith and Jones\x7d", String.data "Lee"] := by
  constructor
  · intro v a ha
    obtain ⟨h1, h2⟩ := split_item_facts ha
    exact ⟨h2, h1⟩
  · decide

/-- Witness for C5 at a concrete item of the concrete split. -/
theorem claim_C5_witness :
    (String.data "Lee" ∈ split_authors_top_level (String.data "\x7bSmith and Jones\x7d and Lee")) ∧
    (String.data "Lee" ≠ [] ∧ pyStrip (String.data "Lee") = String.data "Lee") :=
  ⟨by decide,
   claim_C5.1 (String.data "\x7bSmith and Jones\x7d and Lee") (String.data "Lee") (by decide)⟩

/-- C3: url removal deletes the field together with a following top-level
comma, trailing horizontal whitespace and one line break, and deletes the
leading indentation exactly when the field is preceded on its line only by
whitespace: the sole-content line `"  url = {https://x.com},\n"` is removed
entirely, in `"title={x}, url={y}, year={2020}"` exactly `"url={y}, "` is
removed, and the removal start is the line start precisely when the line
prefix strips to nothing. -/
theorem claim_C3 :
    strip_url_fields (String.data "  url = \x7bhttps://x.com\x7d,\n") = ([], 1) ∧
    strip_url_fields (String.data "title=\x7bx\x7d, url=\x7by\x7d, year=\x7b2020\x7d") =
      (String.data "title=\x7bx\x7d, year=\x7b2020\x7d", 1) ∧
    ∀ (text : List Char) (fi : Nat),
      compute_field_start text fi =
        if pyStrip (sliceOf text (find_line_start text fi) fi) ≠ [] then fi
        else find_line_start text fi := by
  refine ⟨by decide, by decide, fun text fi => rfl⟩

set_option maxRecDepth 40000 in
/-- C9: the pipeline strips urls from the raw document first and collapses
authors on the intermediate text second, reporting both counts; on an entry
with an eight-name author field and one url field it removes the url field,
rewrites the author value to `"<first author> and others"`, and reports
counts (1, 1). -/
theorem claim_C9 :
    (∀ content : List Char,
      clean_bib_content content =
        ((process_bibtex (strip_url_fields content).1).1,
         (strip_url_fields content).2,
         (process_bibtex (strip_url_fields content).1).2)) ∧
    clean_bib_content (String.data ("@article\x7bk,\n  author = \x7bAlpha One and Beta Two " ++
        "and Gamma Three and Delta Four and Epsilon Five and Zeta Six and Eta Seven " ++
        "and Theta Eight\x7d,\n  url = \x7bhttp://e.com\x7d,\n  year = \x7b2020\x7d\n\x7d\n")) =
      (String.data "@article\x7bk,\n  author = \x7bAlpha One and others\x7d,\n  year = \x7b2020\x7d\n\x7d\n",
       1, 1) := by
  refine ⟨fun content => rfl, by decide⟩

/-- C10: for a bare (neither brace- nor quote-delimited) value the boundary
scan never signals unterminated: `find_value_end` returns an index between
`start` and the text length (the text length itself when no top-level comma
or underflowing brace is met), so a bare url value running to the end of
the file is still located and removed. -/
theorem claim_C10 :
    (∀ (text : List Char) (start : Nat) (c : Char),
      text.get? start = some c → c ≠ '{' → c ≠ '"' →
      ∃ ve, find_value_end text start = some ve ∧ start ≤ ve ∧ ve ≤ text.length) ∧
    strip_url_fields (String.data "x,\n  url = http://x.y") = (String.data "x,\n", 1) := by
  constructor
  · intro text start c hg hc1 hc2
    have h1 : text.get? start ≠ some '{' := by rw [hg]; simpa using hc1
    have h2 : text.get? start ≠ some '"' := by rw [hg]; simpa using hc2
    rw [find_value_end, if_neg h1, if_neg h2]
    refine ⟨_, rfl, Nat.le_add_right _ _, ?_⟩
    have := bareScan_le (text.drop start) 0 false false
    rw [List.length_drop] at this
    have := get?_lt hg
    omega
  · decide

/-- Witness for C10's general part at a concrete bare value. -/
theorem claim_C10_witness :
    (String.data "x,\n  url = http://x.y").get? 11 = some 'h' ∧
    ∃ ve, find_value_end (String.data "x,\n  url = http://x.y") 11 = some ve ∧
      11 ≤ ve ∧ ve ≤ (String.data "x,\n  url = http://x.y").length :=
  ⟨by decide, claim_C10.1 _ 11 'h' (by decide) (by decide) (by decide)⟩

/-! ### Abandon/retry behaviour of the two field locators -/

theorem findAuthorF_abandon_brace {content : List Char} {fuel pos idx : Nat}
    (h1 : (relFind ['a', 'u', 't', 'h', 'o', 'r'] ((lowerStr content).drop pos)).map (· + pos) =
      some idx)
    (h2 : is_word_boundary (if idx = 0 then none else content.get? (idx - 1)) = true)
    (h3 : content.get? (skipWs content (idx + 6)) = some '=')
    (h4 : content.get? (skipWs content (skipWs content (idx + 6) + 1)) = some '{')
    (h5 : braceClose (content.drop (skipWs content (skipWs content (idx + 6) + 1) + 1)) 1 = none) :
    findAuthorF content (fuel + 1) pos = none := by
  rw [findAuthorF, h1]
  simp only [h2, Bool.not_true, Bool.false_eq_true, if_false, h3, h4]
  simp [h5]

theorem findAuthorF_abandon_quote {content : List Char} {fuel pos idx : Nat}
    (h1 : (relFind ['a', 'u', 't', 'h', 'o', 'r'] ((lowerStr content).drop pos)).map (· + pos) =
      some idx)
    (h2 : is_word_boundary (if idx = 0 then none else content.get? (idx - 1)) = true)
    (h3 : content.get? (skipWs content (idx + 6)) = some '=')
    (h4 : content.get? (skipWs content (skipWs content (idx + 6) + 1)) = some '"')
    (h5 : quoteClose (content.drop (skipWs content (skipWs content (idx + 6) + 1) + 1)) false =
      none) :
    findAuthorF content (fuel + 1) pos = none := by
  rw [findAuthorF, h1]
  simp only [h2, Bool.not_true, Bool.false_eq_true, if_false, h3, h4]
  simp [h5]

theorem findAuthorF_retry {content : List Char} {fuel pos idx : Nat}
    (h1 : (relFind ['a', 'u', 't', 'h', 'o', 'r'] ((lowerStr content).drop pos)).map (· + pos) =
      some idx)
    (h2 : is_word_boundary (if idx = 0 then none else content.get? (idx - 1)) = false) :
    findAuthorF content (fuel + 1) pos = findAuthorF content fuel (idx + 1) := by
  rw [findAuthorF, h1]
  simp only [h2, Bool.not_false, if_true]

theorem cfb_none_of_unterminated {text : List Char} {c : Nat}
    (h : find_value_end text (skipWs text (skipWs text (c + 3) + 1)) = none) :
    compute_field_bounds text c = none := by
  rw [compute_field_bounds]
  split
  · rfl
  · split
    · rfl
    · split
      · rfl
      · rw [h]

theorem locateLoop_retry {text : List Char} {fuel idx c : Nat} (h0 : idx < text.length)
    (h1 : (relFind ['u', 'r', 'l'] ((lowerStr text).drop idx)).map (· + idx) = some c)
    (h2 : compute_field_bounds text c = none) :
    locateLoop text (fuel + 1) idx = locateLoop text fuel (c + 1) := by
  rw [locateLoop, if_pos h0, h1]
  simp [h2]

/-- C4 counterexample: on `"url={x url={y}"` the boundary scanner signals
unterminated for the first candidate's value (`find_value_end` is `none`,
so `compute_field_bounds` rejects it), yet the url locator still reports a
later occurrence, `(7, 14)` — it does not abandon the search. -/
theorem claim_C4_counterexample :
    find_value_end (String.data "url=\x7bx url=\x7by\x7d") 4 = none ∧
    compute_field_bounds (String.data "url=\x7bx url=\x7by\x7d") 0 = none ∧
    locate_url_field_ranges (String.data "url=\x7bx url=\x7by\x7d") = [(7, 14)] := by
  decide

/-- C4 (amended): on an unterminated brace- or quote-delimited value the
author locator abandons the whole remaining search (`find_next_author_field`
returns `none`, no retry); the url locator instead rejects the candidate
(`compute_field_bounds` is `none`) and retries from one past it, so later
occurrences can still be reported. -/
theorem claim_C4_amended :
    (∀ (content : List Char) (fuel pos idx : Nat),
      (relFind ['a', 'u', 't', 'h', 'o', 'r'] ((lowerStr content).drop pos)).map (· + pos) =
        some idx →
      is_word_boundary (if idx = 0 then none else content.get? (idx - 1)) = true →
      content.get? (skipWs content (idx + 6)) = some '=' →
      content.get? (skipWs content (skipWs content (idx + 6) + 1)) = some '{' →
      braceClose (content.drop (skipWs content (skipWs content (idx + 6) + 1) + 1)) 1 = none →
      findAuthorF content (fuel + 1) pos = none) ∧
    (∀ (content : List Char) (fuel pos idx : Nat),
      (relFind ['a', 'u', 't', 'h', 'o', 'r'] ((lowerStr content).drop pos)).map (· + pos) =
        some idx →
      is_word_boundary (if idx = 0 then none else content.get? (idx - 1)) = true →
      content.get? (skipWs content (idx + 6)) = some '=' →
      content.get? (skipWs content (skipWs content (idx + 6) + 1)) = some '"' →
      quoteClose (content.drop (skipWs content (skipWs content (idx + 6) + 1) + 1)) false =
        none →
      findAuthorF content (fuel + 1) pos = none) ∧
    (∀ (text : List Char) (c : Nat),
      find_value_end text (skipWs text (skipWs text (c + 3) + 1)) = none →
      compute_field_bounds text c = none) ∧
    (∀ (text : List Char) (fuel idx c : Nat), idx < text.length →
      (relFind ['u', 'r', 'l'] ((lowerStr text).drop idx)).map (· + idx) = some c →
      compute_field_bounds text c = none →
      locateLoop text (fuel + 1) idx = locateLoop text fuel (c + 1)) :=
  ⟨fun _ _ _ _ h1 h2 h3 h4 h5 => findAuthorF_abandon_brace h1 h2 h3 h4 h5,
   fun _ _ _ _ h1 h2 h3 h4 h5 => findAuthorF_abandon_quote h1 h2 h3 h4 h5,
   fun _ _ h => cfb_none_of_unterminated h,
   fun _ _ _ _ h0 h1 h2 => locateLoop_retry h0 h1 h2⟩

/-- Witness for the amended C4: the author locator abandons on
`"author={x author={y}"` (even though a well-formed author field follows),
and the url locator on `"url={x url={y}"` retries from index 1 after the
rejected first candidate. -/
theorem claim_C4_amended_witness :
    findAuthorF (String.data "author=\x7bx author=\x7by\x7d") 21 0 = none ∧
    locateLoop (String.data "url=\x7bx url=\x7by\x7d") 15 0 =
      locateLoop (String.data "url=\x7bx url=\x7by\x7d") 14 1 := by
  constructor
  · exact claim_C4_amended.1 (String.data "author=\x7bx author=\x7by\x7d") 20 0 0
      (by decide) (by decide) (by decide) (by decide) (by decide)
  · exact claim_C4_amended.2.2.2 (String.data "url=\x7bx url=\x7by\x7d") 14 0 0
      (by decide) (by decide) (by decide)

/-- C6 counterexample: a preceding backslash is neither alphanumeric nor an
underscore, so by the claim the candidate should pass the
preceding-character check — yet the url locator's `is_field_name` rejects
it (while the author locator's `is_word_boundary` accepts it, and the same
url candidate with a space before it passes). -/
theorem claim_C6_counterexample :
    pyIsAlnum '\\' = false ∧ '\\' ≠ '_' ∧
    is_word_boundary (some '\\') = true ∧
    is_field_name (String.data "\\url=1") 1 3 = false ∧
    is_field_name (String.data " url=1") 1 3 = true := by
  decide

/-- C6 (amended): the author locator rejects a candidate because of its
preceding character exactly when that character exists and is alphanumeric
or an underscore; the url locator rejects exactly when it is alphanumeric,
an underscore, or a backslash; on a preceding-character rejection both
locators retry from one past the match. -/
theorem claim_C6_amended :
    (∀ c : Char, is_word_boundary (some c) = !(pyIsAlnum c || c = '_')) ∧
    is_word_boundary none = true ∧
    (∀ (text : List Char) (i : Nat) (c : Char), 0 < i → text.get? (i - 1) = some c →
      (pyIsAlnum c || c = '_' || c = '\\') = true → is_field_name text i 3 = false) ∧
    (∀ (text : List Char) (i : Nat) (c : Char), 0 < i → text.get? (i - 1) = some c →
      (pyIsAlnum c || c = '_' || c = '\\') = false →
      is_field_name text i 3 =
        (match text.get? (i + 3) with
         | none => true
         | some a => !(pyIsAlnum a || a = '_'))) ∧
    (∀ (content : List Char) (fuel pos idx : Nat),
      (relFind ['a', 'u', 't', 'h', 'o', 'r'] ((lowerStr content).drop pos)).map (· + pos) =
        some idx →
      is_word_boundary (if idx = 0 then none else content.get? (idx - 1)) = false →
      findAuthorF content (fuel + 1) pos = findAuthorF content fuel (idx + 1)) ∧
    (∀ (text : List Char) (fuel idx c : Nat), idx < text.length →
      (relFind ['u', 'r', 'l'] ((lowerStr text).drop idx)).map (· + idx) = some c →
      compute_field_bounds text c = none →
      locateLoop text (fuel + 1) idx = locateLoop text fuel (c + 1)) := by
  refine ⟨fun c => rfl, rfl, ?_, ?_, ?_, ?_⟩
  · intro text i c hi hg hrej
    rw [is_field_name]
    have : (if i = 0 then none else text.get? (i - 1)) = some c := by
      rw [if_neg (by omega), hg]
    rw [this]
    simp only [hrej]
    simp
  · intro text i c hi hg hok
    rw [is_field_name]
    have : (if i = 0 then none else text.get? (i - 1)) = some c := by
      rw [if_neg (by omega), hg]
    rw [this]
    simp only [hok]
    cases text.get? (i + 3) with
    | none => simp
    | some a => simp
  · intro content fuel pos idx h1 h2
    exact findAuthorF_retry h1 h2
  · intro text fuel idx c h0 h1 h2
    exact locateLoop_retry h0 h1 h2

/-- Witness for the amended C6: concrete rejection because of a preceding
backslash, concrete acceptance after a comma, and both concrete retries. -/
theorem claim_C6_amended_witness :
    is_field_name (String.data "a\\url=1") 2 3 = false ∧
    is_field_name (String.data "a,url=1") 2 3 =
      (match (String.data "a,url=1").get? 5 with
       | none => true
       | some a => !(pyIsAlnum a || a = '_')) ∧
    findAuthorF (String.data "xauthor=\x7by\x7d") 11 0 =
      findAuthorF (String.data "xauthor=\x7by\x7d") 10 2 ∧
    locateLoop (String.data "xurl=\x7by\x7d") 9 0 =
      locateLoop (String.data "xurl=\x7by\x7d") 8 2 := by
  refine ⟨?_, ?_, ?_, ?_⟩
  · exact claim_C6_amended.2.2.1 (String.data "a\\url=1") 2 '\\' (by decide) (by decide)
      (by decide)
  · exact claim_C6_amended.2.2.2.1 (String.data "a,url=1") 2 ',' (by decide) (by decide)
      (by decide)
  · exact claim_C6_amended.2.2.2.2.1 (String.data "xauthor=\x7by\x7d") 10 0 1 (by decide)
      (by decide)
  · exact claim_C6_amended.2.2.2.2.2 (String.data "xurl=\x7by\x7d") 8 0 1 (by decide)
      (by decide) (by decide)

/-! ### Disjointness of the url-pass edit spans -/

theorem toLower_eq_self_of_out {c : Char} (h : c.toNat < 65 ∨ 90 < c.toNat) :
    pyToLower c = c := by
  rw [pyToLower]
  unfold Char.toLower
  rw [if_neg (by omega)]

theorem pyIsSpace_toNat {c : Char} (h : pyIsSpace c = true) :
    c.toNat < 65 ∨ 90 < c.toNat := by
  rw [pyIsSpace] at h
  simp only [Bool.or_eq_true, beq_iff_eq, Bool.and_eq_true, decide_eq_true_eq] at h
  rcases h with ((((((((h | h) | h) | h) | h) | h) | ⟨h1, h2⟩) | h) | h)
  all_goals first
    | (subst h; decide)
    | omega

theorem url_char_not_ws {c : Char} (h : pyToLower c = 'u') : pyIsSpace c = false := by
  by_contra hw
  have hw' : pyIsSpace c = true := by simpa using hw
  have heq := toLower_eq_self_of_out (pyIsSpace_toNat hw')
  have hc : c = 'u' := heq.symm.trans h
  subst hc
  exact absurd hw' (by decide)

theorem mem_sliceOf {text : List Char} {a b k : Nat} {ch : Char} (h1 : a ≤ k) (h2 : k < b)
    (hg : text.get? k = some ch) : ch ∈ sliceOf text a b := by
  have : (sliceOf text a b).get? (k - a) = some ch := by
    rw [sliceOf, List.get?_take (by omega), List.get?_drop, Nat.add_sub_cancel' h1, hg]
  exact List.get?_mem this

/-- From index `idx` on, every url candidate's removal start computed by
`compute_field_start` stays at or after `idx`; the invariant that makes the
located ranges non-overlapping. -/
def GoodFrom (text : List Char) (idx : Nat) : Prop :=
  ∀ c' ch, idx ≤ c' → text.get? c' = some ch → pyToLower ch = 'u' →
    idx ≤ compute_field_start text c'

theorem goodFrom_zero (text : List Char) : GoodFrom text 0 :=
  fun _ _ _ _ _ => Nat.zero_le _

theorem goodFrom_succ_of_nonws {text : List Char} {c : Nat} {ch : Char}
    (hg : text.get? c = some ch) (hns : pyIsSpace ch = false) : GoodFrom text (c + 1) := by
  intro c' ch' hge hg' hu
  rw [compute_field_start]
  split
  · omega
  · rename_i hstrip
    push_neg at hstrip
    by_contra hce
    push_neg at hce
    exact pyStrip_ne_nil_of_mem (mem_sliceOf (by omega) (by omega) hg) hns hstrip

theorem goodFrom_of_break {text : List Char} {e : Nat} (he : 0 < e)
    (h : text.get? (e - 1) = some '\n' ∨ text.get? (e - 1) = some '\r') :
    GoodFrom text e := by
  intro c' ch hge hg hu
  rw [compute_field_start]
  split
  · omega
  · by_contra hce
    push_neg at hce
    exact find_line_start_no_break (i := c') (k := e - 1) (by omega) (by omega) h

theorem goodFrom_of_eof {text : List Char} {e : Nat} (he : text.length ≤ e) :
    GoodFrom text e := by
  intro c' ch hge hg hu
  have := get?_lt hg
  omega

theorem goodFrom_of_nonws_tail {text : List Char} {e p : Nat} {x : Char}
    (hpe : p < e) (hx : text.get? p = some x) (hxs : pyIsSpace x = false)
    (htail : ∀ k, p < k → k < e → text.get? k = some ' ' ∨ text.get? k = some '\t') :
    GoodFrom text e := by
  intro c' ch hge hg hu
  rw [compute_field_start]
  split
  · omega
  · rename_i hstrip
    push_neg at hstrip
    by_contra hce
    push_neg at hce
    rcases le_or_lt (find_line_start text c') p with hls | hls
    · exact pyStrip_ne_nil_of_mem (mem_sliceOf hls (by omega) hx) hxs hstrip
    · have hpos : 0 < find_line_start text c' := by omega
      have hbreak := @find_line_start_break text c' hpos
      rcases Nat.eq_or_lt_of_le (show p ≤ find_line_start text c' - 1 by omega) with heq | hq
      · rw [← heq] at hbreak
        rcases hbreak with hb | hb <;>
          (rw [hx] at hb; injection hb with hb; subst hb; exact absurd hxs (by decide))
      · have ht := htail _ hq (by omega)
        rcases hbreak with hb | hb <;> rcases ht with ht | ht <;>
          (rw [ht] at hb; injection hb with hb; exact absurd hb (by decide))

theorem goodFrom_of_stop_char {text : List Char} {e : Nat} {x : Char}
    (hx : text.get? e = some x) (hxs : pyIsSpace x = false) (hxu : pyToLower x ≠ 'u') :
    GoodFrom text e := by
  intro c' ch hge hg hu
  rcases Nat.eq_or_lt_of_le hge with rfl | hlt
  · rw [hx] at hg
    injection hg with hg
    subst hg
    exact absurd hu hxu
  · rw [compute_field_start]
    split
    · omega
    · rename_i hstrip
      push_neg at hstrip
      by_contra hce
      push_neg at hce
      exact pyStrip_ne_nil_of_mem (mem_sliceOf (by omega) (by omega) hx) hxs hstrip

theorem drop_eq_cons_of_get? {text : List Char} {j : Nat} {ch : Char}
    (hg : text.get? j = some ch) : text.drop j = ch :: text.drop (j + 1) := by
  obtain ⟨hlt, hget⟩ := List.get?_eq_some.mp hg
  rw [List.drop_eq_get_cons hlt, hget]

theorem skipSpTab_stop {text : List Char} {j : Nat} {ch : Char}
    (hg : text.get? j = some ch) (h1 : ch ≠ ' ') (h2 : ch ≠ '\t') :
    skipSpTab text j = j := by
  rw [skipSpTab, drop_eq_cons_of_get? hg, List.takeWhile_cons_of_neg (by simp [h1, h2])]
  simp

theorem skipSpTab_at_end {text : List Char} {j : Nat} (h : text.length ≤ j) :
    skipSpTab text j = j := by
  rw [skipSpTab, List.drop_eq_nil_of_le h]
  simp

theorem consume_linebreak_cases (text : List Char) (pos : Nat) :
    consume_linebreak text pos = pos ∨
    (consume_linebreak text pos = pos + 1 ∧
      (text.get? pos = some '\n' ∨ text.get? pos = some '\r')) ∨
    (consume_linebreak text pos = pos + 2 ∧ text.get? (pos + 1) = some '\n') := by
  rw [consume_linebreak]
  by_cases h1 : text.get? pos = some '\r'
  · rw [if_pos h1]
    by_cases h2 : text.get? (pos + 1) = some '\n'
    · rw [if_pos h2]
      exact Or.inr (Or.inr ⟨rfl, h2⟩)
    · rw [if_neg h2]
      exact Or.inr (Or.inl ⟨rfl, Or.inr h1⟩)
  · rw [if_neg h1]
    by_cases h2 : text.get? pos = some '\n'
    · rw [if_pos h2]
      exact Or.inr (Or.inl ⟨rfl, Or.inl h2⟩)
    · rw [if_neg h2]
      exact Or.inl rfl

theorem consume_linebreak_break {text : List Char} {pos : Nat}
    (h : pos < consume_linebreak text pos) :
    text.get? (consume_linebreak text pos - 1) = some '\n' ∨
    text.get? (consume_linebreak text pos - 1) = some '\r' := by
  rcases consume_linebreak_cases text pos with h0 | ⟨h1, hb⟩ | ⟨h2, hb⟩
  · omega
  · rw [h1]
    simpa using hb
  · rw [h2]
    simpa using Or.inl hb

theorem find_value_end_shape {text : List Char} {start ve : Nat} (hst : start ≤ text.length)
    (h : find_value_end text start = some ve) :
    (start + 2 ≤ ve ∧ (text.get? (ve - 1) = some '}' ∨ text.get? (ve - 1) = some '"')) ∨
    ve = text.length ∨
    text.get? ve = some '}' ∨ text.get? ve = some ',' := by
  rw [find_value_end] at h
  split at h
  · cases hbc : braceClose (text.drop (start + 1)) 1 with
    | none => rw [hbc] at h; simp at h
    | some rel =>
      rw [hbc] at h
      simp at h
      obtain ⟨_, hget⟩ := braceClose_bound hbc
      rw [List.get?_drop] at hget
      refine Or.inl ⟨by omega, Or.inl ?_⟩
      rw [← h]
      simpa using hget
  · split at h
    · cases hqc : quoteClose (text.drop (start + 1)) false with
      | none => rw [hqc] at h; simp at h
      | some rel =>
        rw [hqc] at h
        simp at h
        obtain ⟨_, hget⟩ := quoteClose_bound hqc
        rw [List.get?_drop] at hget
        refine Or.inl ⟨by omega, Or.inr ?_⟩
        rw [← h]
        simpa using hget
    · simp only [Option.some.injEq] at h
      rcases bareScan_stop (text.drop start) 0 false false with hs | hs | hs
      · rw [List.length_drop] at hs
        refine Or.inr (Or.inl ?_)
        omega
      · rw [List.get?_drop] at hs
        rw [← h]
        exact Or.inr (Or.inr (Or.inl hs))
      · rw [List.get?_drop] at hs
        rw [← h]
        exact Or.inr (Or.inr (Or.inr hs))

theorem cfb_good {text : List Char} {c s e : Nat}
    (h : compute_field_bounds text c = some (s, e)) : GoodFrom text e := by
  rw [compute_field_bounds] at h
  split at h
  · simp at h
  · split at h
    · simp at h
    · split at h
      · simp at h
      · rename_i hnb heq hnn
        cases hve : find_value_end text (skipWs text (skipWs text (c + 3) + 1)) with
        | none => rw [hve] at h; simp at h
        | some ve =>
          rw [hve] at h
          simp only [Option.some.injEq, Prod.mk.injEq] at h
          obtain ⟨rfl, rfl⟩ := h
          have hj2lt : skipWs text (skipWs text (c + 3) + 1) < text.length := by
            rcases hg : text.get? (skipWs text (skipWs text (c + 3) + 1)) with _ | ch
            · exact absurd hg hnn
            · exact get?_lt hg
          obtain ⟨hvege, hvele⟩ := find_value_end_bounds (by omega) hve
          have hE1ge : ve ≤ skipSpTab text ve := skipSpTab_ge _ _
          rw [computeFieldEnd]
          split
          · rename_i hcm
            have hE2ge : skipSpTab text ve + 1 ≤ skipSpTab text (skipSpTab text ve + 1) :=
              skipSpTab_ge _ _
            rcases Nat.lt_or_ge (skipSpTab text (skipSpTab text ve + 1))
                (consume_linebreak text (skipSpTab text (skipSpTab text ve + 1))) with
              hcons | hcons
            · exact goodFrom_of_break (by omega) (consume_linebreak_break hcons)
            · have hceq := Nat.le_antisymm hcons (consume_linebreak_ge _ _)
              rw [hceq]
              refine goodFrom_of_nonws_tail (p := skipSpTab text ve) (x := ',')
                (by omega) hcm (by decide) ?_
              intro k hk1 hk2
              exact skipSpTab_inside (j := skipSpTab text ve + 1) (by omega) (by omega)
          · rename_i hncm
            rcases Nat.lt_or_ge (skipSpTab text ve)
                (consume_linebreak text (skipSpTab text ve)) with hcons | hcons
            · exact goodFrom_of_break (by omega) (consume_linebreak_break hcons)
            · have hceq := Nat.le_antisymm hcons (consume_linebreak_ge _ _)
              rw [hceq]
              rcases find_value_end_shape (by omega) hve with ⟨hge2, hdel⟩ | heof | hbr | hcomma
              · rcases hdel with hdel | hdel
                · refine goodFrom_of_nonws_tail (p := ve - 1) (x := '}')
                    (by omega) hdel (by decide) ?_
                  intro k hk1 hk2
                  exact skipSpTab_inside (j := ve) (by omega) (by omega)
                · refine goodFrom_of_nonws_tail (p := ve - 1) (x := '"')
                    (by omega) hdel (by decide) ?_
                  intro k hk1 hk2
                  exact skipSpTab_inside (j := ve) (by omega) (by omega)
              · subst heof
                rw [skipSpTab_at_end le_rfl]
                exact goodFrom_of_eof le_rfl
              · have hE1eq : skipSpTab text ve = ve := skipSpTab_stop hbr (by decide) (by decide)
                rw [hE1eq]
                exact goodFrom_of_stop_char hbr (by decide) (by decide)
              · have hE1eq : skipSpTab text ve = ve :=
                  skipSpTab_stop hcomma (by decide) (by decide)
                rw [hE1eq] at hncm
                exact absurd hcomma hncm

theorem lower_get_u {text : List Char} {c : Nat} (h : (lowerStr text).get? c = some 'u') :
    ∃ ch, text.get? c = some ch ∧ pyToLower ch = 'u' := by
  rw [lowerStr, List.get?_map] at h
  cases hg : text.get? c with
  | none => rw [hg] at h; simp at h
  | some ch =>
    rw [hg] at h
    simp at h
    exact ⟨ch, rfl, h⟩

theorem candidate_head {text : List Char} {idx cand : Nat}
    (h : (relFind ['u', 'r', 'l'] ((lowerStr text).drop idx)).map (· + idx) = some cand) :
    idx ≤ cand ∧ ∃ ch, text.get? cand = some ch ∧ pyToLower ch = 'u' := by
  cases hrel : relFind ['u', 'r', 'l'] ((lowerStr text).drop idx) with
  | none => rw [hrel] at h; simp at h
  | some r =>
    rw [hrel] at h
    simp at h
    subst h
    have hp := relFind_prefix hrel
    rw [List.drop_drop] at hp
    obtain ⟨t, ht⟩ := hp
    have hget : (lowerStr text).get? (idx + r) = some 'u' := by
      have h0 : ((lowerStr text).drop (idx + r)).get? 0 = some 'u' := by
        rw [← ht]
        rfl
      rwa [List.get?_drop, Nat.add_zero] at h0
    rw [Nat.add_comm idx r] at hget
    obtain ⟨ch, hch, hu⟩ := lower_get_u hget
    exact ⟨by omega, ch, hch, hu⟩

theorem locateLoop_chain {text : List Char} :
    ∀ fuel idx, GoodFrom text idx →
    (∀ r ∈ locateLoop text fuel idx, idx ≤ r.1 ∧ r.1 < r.2) ∧
    List.Chain' (fun a b => a.1 < b.1 ∧ a.2 ≤ b.1) (locateLoop text fuel idx) := by
  intro fuel
  induction fuel with
  | zero => intro idx _; simp [locateLoop]
  | succ fuel ih =>
    intro idx hgood
    rw [locateLoop]
    split
    · cases hrel : (relFind ['u', 'r', 'l'] ((lowerStr text).drop idx)).map (· + idx) with
      | none => simp
      | some cand =>
        obtain ⟨hic, ch, hch, hu⟩ := candidate_head hrel
        cases hb : compute_field_bounds text cand with
        | none =>
          simp only [hb]
          obtain ⟨hlb, hchain⟩ := ih (cand + 1) (goodFrom_succ_of_nonws hch (url_char_not_ws hu))
          exact ⟨fun r hr => ⟨by have := (hlb r hr).1; omega, (hlb r hr).2⟩, hchain⟩
        | some se =>
          obtain ⟨s, e⟩ := se
          simp only [hb]
          obtain ⟨hcfs, hsc, hce, hel⟩ := compute_field_bounds_basic hb
          have hscand : idx ≤ s := by
            rw [hcfs]
            exact hgood cand ch hic hch hu
          obtain ⟨hlb, hchain⟩ := ih e (cfb_good hb)
          constructor
          · intro r hr
            rcases List.mem_cons.mp hr with rfl | hr'
            · exact ⟨hscand, by omega⟩
            · have := hlb r hr'
              exact ⟨by omega, this.2⟩
          · rw [List.chain'_cons']
            refine ⟨?_, hchain⟩
            intro y hy
            have hymem : y ∈ locateLoop text fuel e := List.mem_of_mem_head? hy
            have := hlb y hymem
            exact ⟨by omega, by omega⟩
    · simp

theorem authorSpansLoop_facts {content : List Char} :
    ∀ fuel i, (∀ r ∈ authorSpansLoop content fuel i, i ≤ r.1 ∧ r.1 ≤ r.2) ∧
    List.Chain' (fun a b => a.1 < b.1 ∧ a.2 ≤ b.1) (authorSpansLoop content fuel i) := by
  intro fuel
  induction fuel with
  | zero => intro i; simp [authorSpansLoop]
  | succ fuel ih =>
    intro i
    rw [authorSpansLoop]
    cases hf : find_next_author_field content i with
    | none => simp
    | some tup =>
      obtain ⟨fs, vs, ve, d, v⟩ := tup
      rw [find_next_author_field] at hf
      obtain ⟨hif, hfv, hvv, hvl, _, _⟩ := findAuthorF_facts _ _ _ _ _ _ _ hf
      cases ht : transform_author_value_if_needed v with
      | none =>
        simp only [ht]
        obtain ⟨hlb, hchain⟩ := ih (ve + 1)
        exact ⟨fun r hr => ⟨by have := (hlb r hr).1; omega, (hlb r hr).2⟩, hchain⟩
      | some r =>
        simp only [ht]
        obtain ⟨hlb, hchain⟩ := ih (ve + 1)
        constructor
        · intro x hx
          rcases List.mem_cons.mp hx with rfl | hx'
          · exact ⟨by omega, by omega⟩
          · have := hlb x hx'
            exact ⟨by omega, this.2⟩
        · rw [List.chain'_cons']
          refine ⟨?_, hchain⟩
          intro y hy
          have hymem : y ∈ authorSpansLoop content fuel (ve + 1) := List.mem_of_mem_head? hy
          have := hlb y hymem
          exact ⟨by omega, by omega⟩

/-- The piece-assembling loop without the source's overlap guard. -/
def stripPiecesNoGuard (text : List Char) : List (Nat × Nat) → Nat → List Char
  | [], cursor => text.drop cursor
  | (s, e) :: rest, cursor => sliceOf text cursor s ++ stripPiecesNoGuard text rest e

theorem stripPieces_noguard {text : List Char} :
    ∀ fuel idx cursor, GoodFrom text idx → cursor ≤ idx →
    stripPieces text (locateLoop text fuel idx) cursor =
      stripPiecesNoGuard text (locateLoop text fuel idx) cursor := by
  intro fuel
  induction fuel with
  | zero => intro idx cursor _ _; simp [locateLoop, stripPieces, stripPiecesNoGuard]
  | succ fuel ih =>
    intro idx cursor hgood hci
    rw [locateLoop]
    split
    · cases hrel : (relFind ['u', 'r', 'l'] ((lowerStr text).drop idx)).map (· + idx) with
      | none => simp [stripPieces, stripPiecesNoGuard]
      | some cand =>
        obtain ⟨hic, ch, hch, hu⟩ := candidate_head hrel
        cases hb : compute_field_bounds text cand with
        | none =>
          simp only [hb]
          exact ih (cand + 1) cursor
            (goodFrom_succ_of_nonws hch (url_char_not_ws hu)) (by omega)
        | some se =>
          obtain ⟨s, e⟩ := se
          simp only [hb]
          obtain ⟨hcfs, hsc, hce, hel⟩ := compute_field_bounds_basic hb
          have hscand : idx ≤ s := by
            rw [hcfs]
            exact hgood cand ch hic hch hu
          rw [stripPieces, stripPiecesNoGuard, if_neg (by omega)]
          rw [ih e e (cfb_good hb) le_rfl]
    · simp [stripPieces, stripPiecesNoGuard]

/-- C8: within a single pass the edit spans are non-overlapping and
strictly increasing in start: consecutive url ranges `(s1,e1),(s2,e2)`
satisfy `s1 < s2` and `e1 ≤ s2` (so the overlap guard of
`strip_url_fields` never skips a range and the reported count is the
number of ranges removed), and the author pass's replaced value spans are
likewise disjoint and increasing. -/
theorem claim_C8 (content : List Char) :
    List.Chain' (fun a b => a.1 < b.1 ∧ a.2 ≤ b.1) (locate_url_field_ranges content) ∧
    List.Chain' (fun a b => a.1 < b.1 ∧ a.2 ≤ b.1) (authorSpans content) ∧
    stripPieces content (locate_url_field_ranges content) 0 =
      stripPiecesNoGuard content (locate_url_field_ranges content) 0 ∧
    (strip_url_fields content).2 = (locate_url_field_ranges content).length :=
  ⟨(locateLoop_chain _ _ (goodFrom_zero content)).2,
   (authorSpansLoop_facts _ _).2,
   stripPieces_noguard _ _ _ (goodFrom_zero content) le_rfl,
   rfl⟩

/-! ### Fuel-independence of the author-field locator -/

theorem findAuthorF_none_of_end {content : List Char} {pos : Nat}
    (h : content.length ≤ pos) : ∀ fuel, findAuthorF content fuel pos = none := by
  intro fuel
  cases fuel with
  | zero => rfl
  | succ fuel =>
    rw [findAuthorF]
    have hd : (lowerStr content).drop pos = [] := by
      apply List.drop_eq_nil_of_le
      rw [lowerStr, List.length_map]
      exact h
    rw [hd]
    rfl

theorem findAuthorF_stable {content : List Char} :
    ∀ f1 f2 pos, content.length + 1 - pos ≤ f1 → content.length + 1 - pos ≤ f2 →
    findAuthorF content f1 pos = findAuthorF content f2 pos := by
  intro f1
  induction f1 with
  | zero =>
    intro f2 pos h1 h2
    rw [findAuthorF_none_of_end (by omega) 0, findAuthorF_none_of_end (by omega) f2]
  | succ f1 ih =>
    intro f2 pos h1 h2
    rcases le_or_lt pos content.length with hpos | hpos
    · cases f2 with
      | zero => omega
      | succ g =>
        rw [findAuthorF, findAuthorF]
        cases hrel : (relFind ['a', 'u', 't', 'h', 'o', 'r'] ((lowerStr content).drop pos)).map
            (· + pos) with
        | none => rfl
        | some idx =>
          have hidx : pos ≤ idx := by
            cases hr : relFind ['a', 'u', 't', 'h', 'o', 'r'] ((lowerStr content).drop pos) with
            | none => rw [hr] at hrel; simp at hrel
            | some r => rw [hr] at hrel; simp at hrel; omega
          simp only
          repeat' split
          all_goals first
            | rfl
            | exact ih g (idx + 1) (by omega) (by omega)
    · rw [findAuthorF_none_of_end (by omega) (f1 + 1), findAuthorF_none_of_end (by omega) f2]

/-! ### Locality: forward scans depend only on a window of the text -/

theorem window_get {t1 t2 : List Char} {a1 a2 W k : Nat}
    (hw : (t1.drop a1).take W = (t2.drop a2).take W) (hk : k < W) :
    t1.get? (a1 + k) = t2.get? (a2 + k) := by
  have h1 : ((t1.drop a1).take W).get? k = ((t2.drop a2).take W).get? k := by rw [hw]
  rwa [List.get?_take hk, List.get?_take hk, List.get?_drop, List.get?_drop] at h1

theorem window_sub {t1 t2 : List Char} {a1 a2 W k : Nat}
    (hw : (t1.drop a1).take W = (t2.drop a2).take W) :
    (t1.drop (a1 + k)).take (W - k) = (t2.drop (a2 + k)).take (W - k) := by
  have h := congrArg (List.drop k) hw
  rw [List.drop_take, List.drop_take, List.drop_drop, List.drop_drop] at h
  exact h

theorem window_weaken {t1 t2 : List Char} {a1 a2 W k : Nat}
    (hw : (t1.drop a1).take W = (t2.drop a2).take W) (hk : k ≤ W) :
    (t1.drop a1).take k = (t2.drop a2).take k := by
  have h := congrArg (List.take k) hw
  rwa [List.take_take, List.take_take, min_eq_left hk] at h

theorem window_slice {t1 t2 : List Char} {a1 a2 W k : Nat}
    (hw : (t1.drop a1).take W = (t2.drop a2).take W) (hk : k ≤ W) :
    sliceOf t1 a1 (a1 + k) = sliceOf t2 a2 (a2 + k) := by
  have h := window_weaken hw hk
  rw [sliceOf, sliceOf, Nat.add_sub_cancel_left, Nat.add_sub_cancel_left]
  exact h

theorem takeWhile_window {p : Char → Bool} :
    ∀ {x y : List Char} {W : Nat}, x.take W = y.take W →
    (x.takeWhile p).length < W → x.takeWhile p = y.takeWhile p := by
  intro x
  induction x with
  | nil =>
    intro y W hw hlen
    cases y with
    | nil => rfl
    | cons d ds =>
      cases W with
      | zero => omega
      | succ w => simp at hw
  | cons c cs ih =>
    intro y W hw hlen
    cases W with
    | zero => omega
    | succ w =>
      cases y with
      | nil => simp at hw
      | cons d ds =>
        simp only [List.take_succ_cons, List.cons.injEq] at hw
        obtain ⟨rfl, htl⟩ := hw
        by_cases hp : p c
        · rw [List.takeWhile_cons_of_pos hp] at hlen ⊢
          rw [List.takeWhile_cons_of_pos hp]
          simp only [List.length_cons] at hlen
          rw [ih htl (by omega)]
        · rw [List.takeWhile_cons_of_neg hp, List.takeWhile_cons_of_neg hp]

theorem braceClose_window :
    ∀ {x y : List Char} {lv r W : Nat}, x.take W = y.take W →
    braceClose x lv = some r → r < W → braceClose y lv = some r := by
  intro x
  induction x with
  | nil => intro y lv r W _ h _; simp [braceClose] at h
  | cons c cs ih =>
    intro y lv r W hw h hr
    cases W with
    | zero => omega
    | succ w =>
      cases y with
      | nil => simp at hw
      | cons d ds =>
        simp only [List.take_succ_cons, List.cons.injEq] at hw
        obtain ⟨rfl, htl⟩ := hw
        rw [braceClose] at h ⊢
        by_cases h1 : c = '{'
        · simp only [h1, if_true] at h ⊢
          cases hbc : braceClose cs (lv + 1) with
          | none => rw [hbc] at h; simp at h
          | some r' =>
            rw [hbc] at h
            simp at h
            subst h
            rw [ih htl hbc (by omega)]
            rfl
        · by_cases h2 : c = '}'
          · by_cases h3 : lv = 1
            · simp only [h1, h2, h3, if_false, if_true] at h ⊢
              exact h
            · simp only [h1, h2, h3, if_false, if_true] at h ⊢
              cases hbc : braceClose cs (lv - 1) with
              | none => rw [hbc] at h; simp at h
              | some r' =>
                rw [hbc] at h
                simp at h
                subst h
                rw [ih htl hbc (by omega)]
                rfl
          · simp only [h1, h2, if_false] at h ⊢
            cases hbc : braceClose cs lv with
            | none => rw [hbc] at h; simp at h
            | some r' =>
              rw [hbc] at h
              simp at h
              subst h
              rw [ih htl hbc (by omega)]
              rfl

theorem quoteClose_window :
    ∀ {x y : List Char} {e : Bool} {r W : Nat}, x.take W = y.take W →
    quoteClose x e = some r → r < W → quoteClose y e = some r := by
  intro x
  induction x with
  | nil => intro y e r W _ h _; simp [quoteClose] at h
  | cons c cs ih =>
    intro y e r W hw h hr
    cases W with
    | zero => omega
    | succ w =>
      cases y with
      | nil => simp at hw
      | cons d ds =>
        simp only [List.take_succ_cons, List.cons.injEq] at hw
        obtain ⟨rfl, htl⟩ := hw
        rw [quoteClose] at h ⊢
        by_cases h1 : (c = '"' && !e : Bool)
        · simp only [h1, if_true] at h ⊢
          exact h
        · by_cases h2 : (c = '\\' && !e : Bool)
          · simp only [h1, h2, if_false, if_true] at h ⊢
            cases hqc : quoteClose cs true with
            | none => rw [hqc] at h; simp at h
            | some r' =>
              rw [hqc] at h
              simp at h
              subst h
              rw [ih htl hqc (by omega)]
              rfl
          · simp only [h1, h2, if_false] at h ⊢
            cases hqc : quoteClose cs false with
            | none => rw [hqc] at h; simp at h
            | some r' =>
              rw [hqc] at h
              simp at h
              subst h
              rw [ih htl hqc (by omega)]
              rfl

theorem relFind_window {needle : List Char} (hne : needle ≠ []) :
    ∀ {x y : List Char} {r W : Nat}, x.take W = y.take W →
    relFind needle x = some r → r + needle.length ≤ W → relFind needle y = some r := by
  intro x
  induction x with
  | nil => intro y r W _ h _; simp [relFind] at h
  | cons c cs ih =>
    intro y r W hw h hrw
    have hnl : 1 ≤ needle.length := by
      cases needle with
      | nil => exact absurd rfl hne
      | cons _ _ => simp
    cases W with
    | zero => omega
    | succ w =>
      cases y with
      | nil => simp at hw
      | cons d ds =>
        simp only [List.take_succ_cons, List.cons.injEq] at hw
        obtain ⟨rfl, htl⟩ := hw
        rw [relFind] at h ⊢
        by_cases hp : needle.isPrefixOf (c :: cs)
        · rw [if_pos hp] at h
          have hp2 : needle.isPrefixOf (c :: ds) := by
            rw [List.isPrefixOf_iff_prefix] at hp ⊢
            have htake : needle <+: (c :: cs).take (w + 1) := by
              rw [List.prefix_take_iff]
              refine ⟨hp, ?_⟩
              simp at h
              omega
            rw [List.take_succ_cons, htl, ← List.take_succ_cons] at htake
            exact htake.trans (List.take_prefix _ _)
          rw [if_pos hp2]
          exact h
        · rw [if_neg hp] at h
          have hp2 : ¬needle.isPrefixOf (c :: ds) := by
            intro hp2
            apply hp
            rw [List.isPrefixOf_iff_prefix] at hp2 ⊢
            have hr1 : 1 ≤ r := by
              cases hrel : relFind needle cs with
              | none => rw [hrel] at h; simp at h
              | some r' => rw [hrel] at h; simp at h; omega
            have htake : needle <+: (c :: ds).take (w + 1) := by
              rw [List.prefix_take_iff]
              exact ⟨hp2, by omega⟩
            rw [List.take_succ_cons, ← htl, ← List.take_succ_cons] at htake
            exact htake.trans (List.take_prefix _ _)
          rw [if_neg hp2]
          cases hrel : relFind needle cs with
          | none => rw [hrel] at h; simp at h
          | some r' =>
            rw [hrel] at h
            simp at h
            subst h
            rw [ih htl hrel (by omega)]
            rfl

theorem author_no_overlap {L : List Char} {c1 c2 : Nat}
    (h1 : ['a', 'u', 't', 'h', 'o', 'r'] <+: L.drop c1)
    (h2 : ['a', 'u', 't', 'h', 'o', 'r'] <+: L.drop c2)
    (hlt : c1 < c2) (hcl : c2 < c1 + 6) : False := by
  obtain ⟨t2, ht2⟩ := h2
  have ha : L.get? c2 = some 'a' := by
    have : (L.drop c2).get? 0 = some 'a' := by rw [← ht2]; rfl
    rwa [List.get?_drop, Nat.add_zero] at this
  obtain ⟨t1, ht1⟩ := h1
  have hb : L.get? c2 = (['a', 'u', 't', 'h', 'o', 'r'] ++ t1).get? (c2 - c1) := by
    rw [ht1, List.get?_drop, Nat.add_sub_cancel' (by omega)]
  rw [ha, List.get?_append (by simp; omega)] at hb
  have hk : c2 - c1 = 1 ∨ c2 - c1 = 2 ∨ c2 - c1 = 3 ∨ c2 - c1 = 4 ∨ c2 - c1 = 5 := by omega
  rcases hk with hk | hk | hk | hk | hk <;> rw [hk] at hb <;> simp at hb

theorem firstEditVS_ge {content : List Char} :
    ∀ fuel i, i ≤ content.length → i ≤ firstEditVS content fuel i := by
  intro fuel
  induction fuel with
  | zero => intro i h; rw [firstEditVS]; exact h
  | succ fuel ih =>
    intro i h
    rw [firstEditVS]
    cases hf : find_next_author_field content i with
    | none => exact h
    | some tup =>
      obtain ⟨fs, vs, ve, d, v⟩ := tup
      rw [find_next_author_field] at hf
      obtain ⟨hif, hfv, hvv, hvl, _, _⟩ := findAuthorF_facts _ _ _ _ _ _ _ hf
      cases ht : transform_author_value_if_needed v with
      | none =>
        simp only [ht]
        have := ih (ve + 1) (by omega)
        omega
      | some r =>
        simp only [ht]
        omega

theorem sliceOf_length {text : List Char} {a b : Nat} (h1 : a ≤ b) (h2 : b ≤ text.length) :
    (sliceOf text a b).length = b - a := by
  rw [sliceOf, List.length_take, List.length_drop]
  omega

theorem processLoop_take {content : List Char} :
    ∀ fuel i cursor j, cursor ≤ i → cursor ≤ j → j ≤ firstEditVS content fuel i →
    (processLoop content fuel i cursor).1.take (j - cursor) = sliceOf content cursor j := by
  intro fuel
  induction fuel with
  | zero =>
    intro i cursor j _ hcj hj
    rw [firstEditVS] at hj
    rfl
  | succ fuel ih =>
    intro i cursor j hci hcj hj
    rw [firstEditVS] at hj
    rw [processLoop]
    cases hf : find_next_author_field content i with
    | none =>
      rw [hf] at hj
      simp only [hf]
      rfl
    | some tup =>
      obtain ⟨fs, vs, ve, d, v⟩ := tup
      rw [hf] at hj
      have hf' := hf
      rw [find_next_author_field] at hf'
      obtain ⟨hif, hfv, hvv, hvl, _, _⟩ := findAuthorF_facts _ _ _ _ _ _ _ hf'
      cases ht : transform_author_value_if_needed v with
      | none =>
        simp only [ht] at hj ⊢
        exact ih (ve + 1) cursor j (by omega) hcj hj
      | some r =>
        simp only [ht] at hj ⊢
        have hslen : (sliceOf content cursor vs).length = vs - cursor :=
          sliceOf_length (by omega) (by omega)
        rw [List.append_assoc]
        rw [List.take_append_of_le_length (by omega)]
        rw [sliceOf, sliceOf, List.take_take]
        congr 1
        omega

theorem lower_get {text : List Char} {c : Nat} {α : Char}
    (h : (lowerStr text).get? c = some α) :
    ∃ ch, text.get? c = some ch ∧ pyToLower ch = α := by
  rw [lowerStr, List.get?_map] at h
  cases hg : text.get? c with
  | none => rw [hg] at h; simp at h
  | some ch =>
    rw [hg] at h
    simp at h
    exact ⟨ch, rfl, h⟩

theorem char_not_ws_of_lower {c α : Char} (h : pyToLower c = α)
    (hα : pyIsSpace α = false) : pyIsSpace c = false := by
  by_contra hw
  have hw' : pyIsSpace c = true := by simpa using hw
  have heq := toLower_eq_self_of_out (pyIsSpace_toNat hw')
  rw [heq] at h
  subst h
  rw [hw'] at hα
  simp at hα

theorem findAuthorF_prefix {content : List Char} :
    ∀ fuel pos fs vs ve d v, findAuthorF content fuel pos = some (fs, vs, ve, d, v) →
    ['a', 'u', 't', 'h', 'o', 'r'] <+: (lowerStr content).drop fs := by
  intro fuel
  induction fuel with
  | zero => intro pos fs vs ve d v h; simp [findAuthorF] at h
  | succ fuel ih =>
    intro pos fs vs ve d v h
    rw [findAuthorF] at h
    cases hrel : relFind ['a', 'u', 't', 'h', 'o', 'r'] ((lowerStr content).drop pos) with
    | none => rw [hrel] at h; simp at h
    | some r =>
      rw [hrel] at h
      simp only [Option.map_some'] at h
      have hpre : ['a', 'u', 't', 'h', 'o', 'r'] <+: (lowerStr content).drop (r + pos) := by
        have h2 := relFind_prefix hrel
        rw [List.drop_drop] at h2
        rwa [Nat.add_comm pos r] at h2
      repeat' split at h
      all_goals first
        | exact Option.noConfusion h
        | exact ih _ _ _ _ _ _ h
        | (simp only [Option.some.injEq, Prod.mk.injEq] at h
           obtain ⟨h1, -⟩ := h
           subst h1
           exact hpre)

theorem skipWs_window {t1 t2 : List Char} {a1 a2 W : Nat}
    (hw : (t1.drop a1).take W = (t2.drop a2).take W)
    (hlt : skipWs t1 a1 - a1 < W) :
    skipWs t2 a2 - a2 = skipWs t1 a1 - a1 := by
  rw [skipWs, Nat.add_sub_cancel_left] at hlt ⊢
  rw [skipWs, Nat.add_sub_cancel_left]
  rw [takeWhile_window hw hlt]

theorem lowerStr_window {t1 t2 : List Char} {a1 a2 W : Nat}
    (hw : (t1.drop a1).take W = (t2.drop a2).take W) :
    ((lowerStr t1).drop a1).take W = ((lowerStr t2).drop a2).take W := by
  rw [lowerStr, lowerStr, ← List.map_drop, ← List.map_drop, ← List.map_take, ← List.map_take,
    hw]

/-- The value-parsing tail of `find_next_author_field`, once the field name,
the equals sign and the delimiter `d` have been located: parse the value of
`t` starting at `vs` (the delimiter is at `vs - 1`, the name at `idx`). -/
def parseValueAt (t : List Char) (idx vs : Nat) (d : Char) :
    Option (Nat × Nat × Nat × Char × List Char) :=
  if d = '{' then
    match braceClose (t.drop vs) 1 with
    | none => none
    | some rel => some (idx, vs, vs + rel, '{', sliceOf t vs (vs + rel))
  else
    match quoteClose (t.drop vs) false with
    | none => none
    | some rel => some (idx, vs, vs + rel, '"', sliceOf t vs (vs + rel))

theorem findAuthorF_local {t1 t2 : List Char} :
    ∀ fuel p1 p2 W fs vs ve d v,
    (p1 = 0 ↔ p2 = 0) →
    (1 ≤ p1 → t1.get? (p1 - 1) = t2.get? (p2 - 1)) →
    (t1.drop p1).take W = (t2.drop p2).take W →
    vs ≤ p1 + W →
    findAuthorF t1 fuel p1 = some (fs, vs, ve, d, v) →
    findAuthorF t2 fuel p2 = parseValueAt t2 (fs - p1 + p2) (vs - p1 + p2) d := by
  intro fuel
  induction fuel with
  | zero => intro p1 p2 W fs vs ve d v _ _ _ _ h; simp [findAuthorF] at h
  | succ fuel ih =>
    intro p1 p2 W fs vs ve d v hz hwp hw hcov h
    obtain ⟨hpf, hfv, hvv, hvl, hvsl, hdel⟩ := findAuthorF_facts _ _ _ _ _ _ _ h
    have hocc := findAuthorF_prefix _ _ _ _ _ _ _ h
    have hfsa : (lowerStr t1).get? fs = some 'a' := by
      obtain ⟨t, ht⟩ := hocc
      have h0 : ((lowerStr t1).drop fs).get? 0 = some 'a' := by rw [← ht]; rfl
      rwa [List.get?_drop, Nat.add_zero] at h0
    obtain ⟨cha, hcha, hchal⟩ := lower_get hfsa
    have hchans : pyIsSpace cha = false := char_not_ws_of_lower hchal (by decide)
    have hchane : cha ≠ '=' := by
      intro hk
      subst hk
      simp [pyToLower] at hchal
    rw [findAuthorF] at h
    rw [findAuthorF]
    cases hrel1 : relFind ['a', 'u', 't', 'h', 'o', 'r'] ((lowerStr t1).drop p1) with
    | none => rw [hrel1] at h; simp at h
    | some r =>
      rw [hrel1] at h
      simp only [Option.map_some'] at h
      have hwL := lowerStr_window hw
      have hidx_occ : ['a', 'u', 't', 'h', 'o', 'r'] <+: (lowerStr t1).drop (r + p1) := by
        have h2 := relFind_prefix hrel1
        rw [List.drop_drop] at h2
        rwa [Nat.add_comm p1 r] at h2
      by_cases hb : (!is_word_boundary (if r + p1 = 0 then none else t1.get? (r + p1 - 1)) : Bool)
      · -- boundary rejection: both sides retry from one past the candidate
        rw [if_pos hb] at h
        have hrec := findAuthorF_facts _ _ _ _ _ _ _ h
        have hr6 : r + 9 ≤ W := by omega
        have hrel2 : relFind ['a', 'u', 't', 'h', 'o', 'r'] ((lowerStr t2).drop p2) = some r :=
          relFind_window (by simp) hwL hrel1 (by simp; omega)
        rw [hrel2]
        simp only [Option.map_some']
        have hprev : (if r + p1 = 0 then none else t1.get? (r + p1 - 1)) =
            (if r + p2 = 0 then none else t2.get? (r + p2 - 1)) := by
          by_cases h0 : r + p1 = 0
          · have hr0 : r = 0 ∧ p1 = 0 := by omega
            have hp2 : p2 = 0 := hz.mp hr0.2
            rw [if_pos h0, if_pos (by omega)]
          · have h02 : ¬(r + p2 = 0) := by
              intro hk
              have hp1 : p1 = 0 := hz.mpr (by omega)
              omega
            rw [if_neg h0, if_neg h02]
            cases r with
            | zero =>
              have := hwp (by omega)
              simpa using this
            | succ r' =>
              have hg := window_get hw (k := r') (by omega)
              have e1 : r' + 1 + p1 - 1 = p1 + r' := by omega
              have e2 : r' + 1 + p2 - 1 = p2 + r' := by omega
              rw [e1, e2]
              exact hg
        rw [← hprev, if_pos hb]
        have harith1 : fs - (r + p1 + 1) + (r + p2 + 1) = fs - p1 + p2 := by omega
        have harith2 : vs - (r + p1 + 1) + (r + p2 + 1) = vs - p1 + p2 := by omega
        rw [← harith1, ← harith2]
        refine ih (r + p1 + 1) (r + p2 + 1) (W - (r + 1)) fs vs ve d v (by omega) ?_ ?_
          (by omega) h
        · intro _
          have hg := window_get hw (k := r) (by omega)
          have e1 : r + p1 + 1 - 1 = p1 + r := by omega
          have e2 : r + p2 + 1 - 1 = p2 + r := by omega
          rw [e1, e2]
          exact hg
        · have hws := window_sub hw (k := r + 1)
          have e1 : p1 + (r + 1) = r + p1 + 1 := by omega
          have e2 : p2 + (r + 1) = r + p2 + 1 := by omega
          rw [e1, e2] at hws
          exact hws
      · rw [if_neg hb] at h
        -- the candidate passes the boundary check on both sides
        by_cases he : t1.get? (skipWs t1 (r + p1 + 6)) ≠ some '='
        · -- '=' rejection
          rw [if_pos he] at h
          have hrec := findAuthorF_facts _ _ _ _ _ _ _ h
          have hr6 : r + 9 ≤ W := by omega
          have hsep : r + p1 + 6 ≤ fs := by
            by_contra hc
            push_neg at hc
            exact author_no_overlap hidx_occ hocc (by omega) (by omega)
          have hj1le : skipWs t1 (r + p1 + 6) ≤ fs := by
            by_contra hc
            push_neg at hc
            obtain ⟨c0, hc0, hc0w⟩ := skipWs_inside (j := r + p1 + 6) (by omega) hc
            rw [hcha] at hc0
            injection hc0 with hc0
            subst hc0
            rw [hc0w] at hchans
            simp at hchans
          have hrel2 : relFind ['a', 'u', 't', 'h', 'o', 'r'] ((lowerStr t2).drop p2) = some r :=
            relFind_window (by simp) hwL hrel1 (by simp; omega)
          rw [hrel2]
          simp only [Option.map_some']
          have hprev : (if r + p1 = 0 then none else t1.get? (r + p1 - 1)) =
              (if r + p2 = 0 then none else t2.get? (r + p2 - 1)) := by
            by_cases h0 : r + p1 = 0
            · have hr0 : r = 0 ∧ p1 = 0 := by omega
              have hp2 : p2 = 0 := hz.mp hr0.2
              rw [if_pos h0, if_pos (by omega)]
            · have h02 : ¬(r + p2 = 0) := by
                intro hk
                have hp1 : p1 = 0 := hz.mpr (by omega)
                omega
              rw [if_neg h0, if_neg h02]
              cases r with
              | zero =>
                have := hwp (by omega)
                simpa using this
              | succ r' =>
                have hg := window_get hw (k := r') (by omega)
                have e1 : r' + 1 + p1 - 1 = p1 + r' := by omega
                have e2 : r' + 1 + p2 - 1 = p2 + r' := by omega
                rw [e1, e2]
                exact hg
          rw [← hprev, if_neg hb]
          -- the j-scan agrees, and the character at j differs from '='
          have hwj := window_sub hw (k := r + 6)
          have e1 : p1 + (r + 6) = r + p1 + 6 := by omega
          have e2 : p2 + (r + 6) = r + p2 + 6 := by omega
          rw [e1, e2] at hwj
          have hrun := skipWs_window hwj (by
            have := skipWs_ge t1 (r + p1 + 6)
            omega)
          have hj2eq : skipWs t2 (r + p2 + 6) =
              skipWs t1 (r + p1 + 6) - p1 + p2 := by
            have h1 := skipWs_ge t1 (r + p1 + 6)
            have h2 := skipWs_ge t2 (r + p2 + 6)
            omega
          have hgj := window_get hw (k := skipWs t1 (r + p1 + 6) - p1) (by omega)
          have e3 : p1 + (skipWs t1 (r + p1 + 6) - p1) = skipWs t1 (r + p1 + 6) := by
            have := skipWs_ge t1 (r + p1 + 6)
            omega
          rw [e3] at hgj
          have he2 : t2.get? (skipWs t2 (r + p2 + 6)) ≠ some '=' := by
            have e4 : skipWs t2 (r + p2 + 6) = p2 + (skipWs t1 (r + p1 + 6) - p1) := by omega
            rw [e4, ← hgj]
            exact he
          rw [if_pos he2]
          have harith1 : fs - (r + p1 + 1) + (r + p2 + 1) = fs - p1 + p2 := by omega
          have harith2 : vs - (r + p1 + 1) + (r + p2 + 1) = vs - p1 + p2 := by omega
          rw [← harith1, ← harith2]
          refine ih (r + p1 + 1) (r + p2 + 1) (W - (r + 1)) fs vs ve d v (by omega) ?_ ?_
            (by omega) h
          · intro _
            have hg := window_get hw (k := r) (by omega)
            have e1' : r + p1 + 1 - 1 = p1 + r := by omega
            have e2' : r + p2 + 1 - 1 = p2 + r := by omega
            rw [e1', e2']
            exact hg
          · have hws := window_sub hw (k := r + 1)
            have e1' : p1 + (r + 1) = r + p1 + 1 := by omega
            have e2' : p2 + (r + 1) = r + p2 + 1 := by omega
            rw [e1', e2'] at hws
            exact hws
        · rw [if_neg he] at h
          have heq : t1.get? (skipWs t1 (r + p1 + 6)) = some '=' := not_not.mp he
          cases hd2 : t1.get? (skipWs t1 (skipWs t1 (r + p1 + 6) + 1)) with
          | none => rw [hd2] at h; simp at h
          | some dd =>
            simp only [hd2] at h
            by_cases hdd : dd ≠ '{' ∧ dd ≠ '"'
            · -- delimiter rejection: both sides retry from one past the candidate
              rw [if_pos hdd] at h
              have hrec := findAuthorF_facts _ _ _ _ _ _ _ h
              have hsep : r + p1 + 6 ≤ fs := by
                by_contra hc
                push_neg at hc
                exact author_no_overlap hidx_occ hocc (by omega) (by omega)
              have hj1le : skipWs t1 (r + p1 + 6) ≤ fs := by
                by_contra hc
                push_neg at hc
                obtain ⟨c0, hc0, hc0w⟩ := skipWs_inside (j := r + p1 + 6) (by omega) hc
                rw [hcha] at hc0
                injection hc0 with hc0
                subst hc0
                rw [hc0w] at hchans
                simp at hchans
              have hj1lt : skipWs t1 (r + p1 + 6) < fs := by
                rcases Nat.lt_or_ge (skipWs t1 (r + p1 + 6)) fs with hk | hk
                · exact hk
                · have hk2 : skipWs t1 (r + p1 + 6) = fs := by omega
                  rw [hk2, hcha] at heq
                  injection heq with heq
                  exact absurd heq hchane
              have hj2le : skipWs t1 (skipWs t1 (r + p1 + 6) + 1) ≤ fs := by
                by_contra hc
                push_neg at hc
                obtain ⟨c0, hc0, hc0w⟩ :=
                  skipWs_inside (j := skipWs t1 (r + p1 + 6) + 1) (by omega) hc
                rw [hcha] at hc0
                injection hc0 with hc0
                subst hc0
                rw [hc0w] at hchans
                simp at hchans
              have hr6 : r + 10 ≤ W := by omega
              have hrel2 : relFind ['a', 'u', 't', 'h', 'o', 'r'] ((lowerStr t2).drop p2) = some r :=
                relFind_window (by simp) hwL hrel1 (by simp; omega)
              rw [hrel2]
              simp only [Option.map_some']
              have hprev : (if r + p1 = 0 then none else t1.get? (r + p1 - 1)) =
                  (if r + p2 = 0 then none else t2.get? (r + p2 - 1)) := by
                by_cases h0 : r + p1 = 0
                · have hr0 : r = 0 ∧ p1 = 0 := by omega
                  have hp2 : p2 = 0 := hz.mp hr0.2
                  rw [if_pos h0, if_pos (by omega)]
                · have h02 : ¬(r + p2 = 0) := by
                    intro hk
                    have hp1 : p1 = 0 := hz.mpr (by omega)
                    omega
                  rw [if_neg h0, if_neg h02]
                  cases r with
                  | zero =>
                    have := hwp (by omega)
                    simpa using this
                  | succ r' =>
                    have hg := window_get hw (k := r') (by omega)
                    have e1 : r' + 1 + p1 - 1 = p1 + r' := by omega
                    have e2 : r' + 1 + p2 - 1 = p2 + r' := by omega
                    rw [e1, e2]
                    exact hg
              rw [← hprev, if_neg hb]
              have hwj := window_sub hw (k := r + 6)
              have e1 : p1 + (r + 6) = r + p1 + 6 := by omega
              have e2 : p2 + (r + 6) = r + p2 + 6 := by omega
              rw [e1, e2] at hwj
              have hge1 := skipWs_ge t1 (r + p1 + 6)
              have hrun := skipWs_window hwj (by omega)
              have hge2 := skipWs_ge t2 (r + p2 + 6)
              have hgj := window_get hw (k := skipWs t1 (r + p1 + 6) - p1) (by omega)
              have e3 : p1 + (skipWs t1 (r + p1 + 6) - p1) = skipWs t1 (r + p1 + 6) := by omega
              rw [e3] at hgj
              have he2 : ¬(t2.get? (skipWs t2 (r + p2 + 6)) ≠ some '=') := by
                have e4 : skipWs t2 (r + p2 + 6) = p2 + (skipWs t1 (r + p1 + 6) - p1) := by
                  omega
                rw [e4, ← hgj, heq]
                simp
              rw [if_neg he2]
              have hwj2 := window_sub hw (k := skipWs t1 (r + p1 + 6) + 1 - p1)
              have e5 : p1 + (skipWs t1 (r + p1 + 6) + 1 - p1) =
                  skipWs t1 (r + p1 + 6) + 1 := by omega
              have e6 : p2 + (skipWs t1 (r + p1 + 6) + 1 - p1) =
                  skipWs t2 (r + p2 + 6) + 1 := by omega
              rw [e5, e6] at hwj2
              have hge3 := skipWs_ge t1 (skipWs t1 (r + p1 + 6) + 1)
              have hrun2 := skipWs_window hwj2 (by omega)
              have hge4 := skipWs_ge t2 (skipWs t2 (r + p2 + 6) + 1)
              have hgd := window_get hw
                (k := skipWs t1 (skipWs t1 (r + p1 + 6) + 1) - p1) (by omega)
              have e7 : p1 + (skipWs t1 (skipWs t1 (r + p1 + 6) + 1) - p1) =
                  skipWs t1 (skipWs t1 (r + p1 + 6) + 1) := by omega
              rw [e7] at hgd
              have hd2' : t2.get? (skipWs t2 (skipWs t2 (r + p2 + 6) + 1)) = some dd := by
                have e8 : skipWs t2 (skipWs t2 (r + p2 + 6) + 1) =
                    p2 + (skipWs t1 (skipWs t1 (r + p1 + 6) + 1) - p1) := by omega
                rw [e8, ← hgd]
                exact hd2
              simp only [hd2']
              rw [if_pos hdd]
              have harith1 : fs - (r + p1 + 1) + (r + p2 + 1) = fs - p1 + p2 := by omega
              have harith2 : vs - (r + p1 + 1) + (r + p2 + 1) = vs - p1 + p2 := by omega
              rw [← harith1, ← harith2]
              refine ih (r + p1 + 1) (r + p2 + 1) (W - (r + 1)) fs vs ve d v (by omega) ?_ ?_
                (by omega) h
              · intro _
                have hg := window_get hw (k := r) (by omega)
                have e1' : r + p1 + 1 - 1 = p1 + r := by omega
                have e2' : r + p2 + 1 - 1 = p2 + r := by omega
                rw [e1', e2']
                exact hg
              · have hws := window_sub hw (k := r + 1)
                have e1' : p1 + (r + 1) = r + p1 + 1 := by omega
                have e2' : p2 + (r + 1) = r + p2 + 1 := by omega
                rw [e1', e2'] at hws
                exact hws
            · -- success: the candidate is accepted on both sides
              rw [if_neg hdd] at h
              by_cases hbr : dd = '{'
              · rw [if_pos hbr] at h
                cases hbc : braceClose
                    (t1.drop (skipWs t1 (skipWs t1 (r + p1 + 6) + 1) + 1)) 1 with
                | none =>
                  rw [hbc] at h
                  simp at h
                | some rel =>
                  rw [hbc] at h
                  simp only [Option.some.injEq, Prod.mk.injEq] at h
                  obtain ⟨hfs', hvs', hve', hd', hv'⟩ := h
                  have hge1 := skipWs_ge t1 (r + p1 + 6)
                  have hge3 := skipWs_ge t1 (skipWs t1 (r + p1 + 6) + 1)
                  have hj2lt : skipWs t1 (skipWs t1 (r + p1 + 6) + 1) < p1 + W := by omega
                  have hr6 : r + 8 ≤ W := by omega
                  have hrel2 : relFind ['a', 'u', 't', 'h', 'o', 'r']
                      ((lowerStr t2).drop p2) = some r :=
                    relFind_window (by simp) hwL hrel1 (by simp; omega)
                  rw [hrel2]
                  simp only [Option.map_some']
                  have hprev : (if r + p1 = 0 then none else t1.get? (r + p1 - 1)) =
                      (if r + p2 = 0 then none else t2.get? (r + p2 - 1)) := by
                    by_cases h0 : r + p1 = 0
                    · have hr0 : r = 0 ∧ p1 = 0 := by omega
                      have hp2 : p2 = 0 := hz.mp hr0.2
                      rw [if_pos h0, if_pos (by omega)]
                    · have h02 : ¬(r + p2 = 0) := by
                        intro hk
                        have hp1 : p1 = 0 := hz.mpr (by omega)
                        omega
                      rw [if_neg h0, if_neg h02]
                      cases r with
                      | zero =>
                        have := hwp (by omega)
                        simpa using this
                      | succ r' =>
                        have hg := window_get hw (k := r') (by omega)
                        have e1 : r' + 1 + p1 - 1 = p1 + r' := by omega
                        have e2 : r' + 1 + p2 - 1 = p2 + r' := by omega
                        rw [e1, e2]
                        exact hg
                  rw [← hprev, if_neg hb]
                  have hwj := window_sub hw (k := r + 6)
                  have e1 : p1 + (r + 6) = r + p1 + 6 := by omega
                  have e2 : p2 + (r + 6) = r + p2 + 6 := by omega
                  rw [e1, e2] at hwj
                  have hrun := skipWs_window hwj (by omega)
                  have hge2 := skipWs_ge t2 (r + p2 + 6)
                  have hgj := window_get hw (k := skipWs t1 (r + p1 + 6) - p1) (by omega)
                  have e3 : p1 + (skipWs t1 (r + p1 + 6) - p1) = skipWs t1 (r + p1 + 6) := by
                    omega
                  rw [e3] at hgj
                  have he2 : ¬(t2.get? (skipWs t2 (r + p2 + 6)) ≠ some '=') := by
                    have e4 : skipWs t2 (r + p2 + 6) =
                        p2 + (skipWs t1 (r + p1 + 6) - p1) := by omega
                    rw [e4, ← hgj, heq]
                    simp
                  rw [if_neg he2]
                  have hwj2 := window_sub hw (k := skipWs t1 (r + p1 + 6) + 1 - p1)
                  have e5 : p1 + (skipWs t1 (r + p1 + 6) + 1 - p1) =
                      skipWs t1 (r + p1 + 6) + 1 := by omega
                  have e6 : p2 + (skipWs t1 (r + p1 + 6) + 1 - p1) =
                      skipWs t2 (r + p2 + 6) + 1 := by omega
                  rw [e5, e6] at hwj2
                  have hrun2 := skipWs_window hwj2 (by omega)
                  have hge4 := skipWs_ge t2 (skipWs t2 (r + p2 + 6) + 1)
                  have hgd := window_get hw
                    (k := skipWs t1 (skipWs t1 (r + p1 + 6) + 1) - p1) (by omega)
                  have e7 : p1 + (skipWs t1 (skipWs t1 (r + p1 + 6) + 1) - p1) =
                      skipWs t1 (skipWs t1 (r + p1 + 6) + 1) := by omega
                  rw [e7] at hgd
                  have hd2' : t2.get? (skipWs t2 (skipWs t2 (r + p2 + 6) + 1)) = some dd := by
                    have e8 : skipWs t2 (skipWs t2 (r + p2 + 6) + 1) =
                        p2 + (skipWs t1 (skipWs t1 (r + p1 + 6) + 1) - p1) := by omega
                    rw [e8, ← hgd]
                    exact hd2
                  simp only [hd2']
                  rw [if_neg hdd, if_pos hbr]
                  subst hd'
                  have efs : fs - p1 + p2 = r + p2 := by omega
                  have evs : skipWs t2 (skipWs t2 (r + p2 + 6) + 1) + 1 = vs - p1 + p2 := by
                    omega
                  rw [efs, evs, parseValueAt, if_pos rfl]
              · have hq : dd = '"' := by
                  rcases not_and_or.mp hdd with hk | hk
                  · exact absurd (not_not.mp hk) hbr
                  · exact not_not.mp hk
                rw [if_neg hbr] at h
                cases hqc : quoteClose
                    (t1.drop (skipWs t1 (skipWs t1 (r + p1 + 6) + 1) + 1)) false with
                | none =>
                  rw [hqc] at h
                  simp at h
                | some rel =>
                  rw [hqc] at h
                  simp only [Option.some.injEq, Prod.mk.injEq] at h
                  obtain ⟨hfs', hvs', hve', hd', hv'⟩ := h
                  have hge1 := skipWs_ge t1 (r + p1 + 6)
                  have hge3 := skipWs_ge t1 (skipWs t1 (r + p1 + 6) + 1)
                  have hj2lt : skipWs t1 (skipWs t1 (r + p1 + 6) + 1) < p1 + W := by omega
                  have hr6 : r + 8 ≤ W := by omega
                  have hrel2 : relFind ['a', 'u', 't', 'h', 'o', 'r']
                      ((lowerStr t2).drop p2) = some r :=
                    relFind_window (by simp) hwL hrel1 (by simp; omega)
                  rw [hrel2]
                  simp only [Option.map_some']
                  have hprev : (if r + p1 = 0 then none else t1.get? (r + p1 - 1)) =
                      (if r + p2 = 0 then none else t2.get? (r + p2 - 1)) := by
                    by_cases h0 : r + p1 = 0
                    · have hr0 : r = 0 ∧ p1 = 0 := by omega
                      have hp2 : p2 = 0 := hz.mp hr0.2
                      rw [if_pos h0, if_pos (by omega)]
                    · have h02 : ¬(r + p2 = 0) := by
                        intro hk
                        have hp1 : p1 = 0 := hz.mpr (by omega)
                        omega
                      rw [if_neg h0, if_neg h02]
                      cases r with
                      | zero =>
                        have := hwp (by omega)
                        simpa using this
                      | succ r' =>
                        have hg := window_get hw (k := r') (by omega)
                        have e1 : r' + 1 + p1 - 1 = p1 + r' := by omega
                        have e2 : r' + 1 + p2 - 1 = p2 + r' := by omega
                        rw [e1, e2]
                        exact hg
                  rw [← hprev, if_neg hb]
                  have hwj := window_sub hw (k := r + 6)
                  have e1 : p1 + (r + 6) = r + p1 + 6 := by omega
                  have e2 : p2 + (r + 6) = r + p2 + 6 := by omega
                  rw [e1, e2] at hwj
                  have hrun := skipWs_window hwj (by omega)
                  have hge2 := skipWs_ge t2 (r + p2 + 6)
                  have hgj := window_get hw (k := skipWs t1 (r + p1 + 6) - p1) (by omega)
                  have e3 : p1 + (skipWs t1 (r + p1 + 6) - p1) = skipWs t1 (r + p1 + 6) := by
                    omega
                  rw [e3] at hgj
                  have he2 : ¬(t2.get? (skipWs t2 (r + p2 + 6)) ≠ some '=') := by
                    have e4 : skipWs t2 (r + p2 + 6) =
                        p2 + (skipWs t1 (r + p1 + 6) - p1) := by omega
                    rw [e4, ← hgj, heq]
                    simp
                  rw [if_neg he2]
                  have hwj2 := window_sub hw (k := skipWs t1 (r + p1 + 6) + 1 - p1)
                  have e5 : p1 + (skipWs t1 (r + p1 + 6) + 1 - p1) =
                      skipWs t1 (r + p1 + 6) + 1 := by omega
                  have e6 : p2 + (skipWs t1 (r + p1 + 6) + 1 - p1) =
                      skipWs t2 (r + p2 + 6) + 1 := by omega
                  rw [e5, e6] at hwj2
                  have hrun2 := skipWs_window hwj2 (by omega)
                  have hge4 := skipWs_ge t2 (skipWs t2 (r + p2 + 6) + 1)
                  have hgd := window_get hw
                    (k := skipWs t1 (skipWs t1 (r + p1 + 6) + 1) - p1) (by omega)
                  have e7 : p1 + (skipWs t1 (skipWs t1 (r + p1 + 6) + 1) - p1) =
                      skipWs t1 (skipWs t1 (r + p1 + 6) + 1) := by omega
                  rw [e7] at hgd
                  have hd2' : t2.get? (skipWs t2 (skipWs t2 (r + p2 + 6) + 1)) = some dd := by
                    have e8 : skipWs t2 (skipWs t2 (r + p2 + 6) + 1) =
                        p2 + (skipWs t1 (skipWs t1 (r + p1 + 6) + 1) - p1) := by omega
                    rw [e8, ← hgd]
                    exact hd2
                  simp only [hd2']
                  rw [if_neg hdd, if_neg hbr]
                  subst hd'
                  have efs : fs - p1 + p2 = r + p2 := by omega
                  have evs : skipWs t2 (skipWs t2 (r + p2 + 6) + 1) + 1 = vs - p1 + p2 := by
                    omega
                  rw [efs, evs, parseValueAt, if_neg (by decide)]

theorem findAuthorF_parse {content : List Char} :
    ∀ fuel pos fs vs ve d v,
    findAuthorF content fuel pos = some (fs, vs, ve, d, v) →
    (d = '{' → braceClose (content.drop vs) 1 = some (ve - vs)) ∧
    (d = '"' → quoteClose (content.drop vs) false = some (ve - vs)) := by
  intro fuel
  induction fuel with
  | zero => intro pos fs vs ve d v h; simp [findAuthorF] at h
  | succ fuel ih =>
    intro pos fs vs ve d v h
    rw [findAuthorF] at h
    cases hrel : relFind ['a', 'u', 't', 'h', 'o', 'r'] ((lowerStr content).drop pos) with
    | none => rw [hrel] at h; simp at h
    | some r =>
      rw [hrel] at h
      simp only [Option.map_some'] at h
      by_cases hb : (!is_word_boundary
          (if r + pos = 0 then none else content.get? (r + pos - 1)) : Bool)
      · rw [if_pos hb] at h
        exact ih _ _ _ _ _ _ h
      · rw [if_neg hb] at h
        by_cases he : content.get? (skipWs content (r + pos + 6)) ≠ some '='
        · rw [if_pos he] at h
          exact ih _ _ _ _ _ _ h
        · rw [if_neg he] at h
          cases hd : content.get? (skipWs content (skipWs content (r + pos + 6) + 1)) with
          | none => rw [hd] at h; simp at h
          | some dd =>
            rw [hd] at h
            simp only at h
            by_cases hdd : dd ≠ '{' ∧ dd ≠ '"'
            · rw [if_pos hdd] at h
              exact ih _ _ _ _ _ _ h
            · rw [if_neg hdd] at h
              by_cases hbr : dd = '{'
              · rw [if_pos hbr] at h
                cases hbc : braceClose
                    (content.drop (skipWs content (skipWs content (r + pos + 6) + 1) + 1)) 1 with
                | none => rw [hbc] at h; simp at h
                | some rel =>
                  rw [hbc] at h
                  simp only [Option.some.injEq, Prod.mk.injEq] at h
                  obtain ⟨rfl, rfl, rfl, rfl, rfl⟩ := h
                  refine ⟨fun _ => ?_, fun hq => by simp at hq⟩
                  rw [Nat.add_sub_cancel_left]
                  exact hbc
              · rw [if_neg hbr] at h
                cases hqc : quoteClose
                    (content.drop (skipWs content (skipWs content (r + pos + 6) + 1) + 1)) false with
                | none => rw [hqc] at h; simp at h
                | some rel =>
                  rw [hqc] at h
                  simp only [Option.some.injEq, Prod.mk.injEq] at h
                  obtain ⟨rfl, rfl, rfl, rfl, rfl⟩ := h
                  refine ⟨fun hq => by simp at hq, fun _ => ?_⟩
                  rw [Nat.add_sub_cancel_left]
                  exact hqc

/-! ### Balance of the replacement text (for idempotence) -/

/-- The nesting level after scanning all of `l` from level `lv` with the
brace rules of `braceClose`; `none` when the scan would have stopped (a
closing brace at level 1) somewhere inside `l`. -/
def braceRun : List Char → Nat → Option Nat
  | [], lv => some lv
  | c :: cs, lv =>
    if c = '{' then braceRun cs (lv + 1)
    else if c = '}' then
      if lv = 1 then none else braceRun cs (lv - 1)
    else braceRun cs lv

/-- The escape flag after scanning all of `l` from flag `e` with the rules
of `quoteClose`; `none` when the scan would have stopped (an unescaped
quote) somewhere inside `l`. -/
def quoteRun : List Char → Bool → Option Bool
  | [], e => some e
  | c :: cs, e =>
    if c = '"' && !e then none
    else if c = '\\' && !e then quoteRun cs true
    else quoteRun cs false

theorem braceRun_append : ∀ (x y : List Char) (lv : Nat),
    braceRun (x ++ y) lv = (braceRun x lv).bind (braceRun y) := by
  intro x
  induction x with
  | nil => intro y lv; rfl
  | cons c cs ih =>
    intro y lv
    rw [List.cons_append, braceRun, braceRun]
    by_cases h1 : c = '{'
    · rw [if_pos h1, if_pos h1, ih]
    · rw [if_neg h1, if_neg h1]
      by_cases h2 : c = '}'
      · rw [if_pos h2, if_pos h2]
        by_cases h3 : lv = 1
        · rw [if_pos h3, if_pos h3]
          rfl
        · rw [if_neg h3, if_neg h3, ih]
      · rw [if_neg h2, if_neg h2, ih]

theorem quoteRun_append : ∀ (x y : List Char) (e : Bool),
    quoteRun (x ++ y) e = (quoteRun x e).bind (quoteRun y) := by
  intro x
  induction x with
  | nil => intro y e; rfl
  | cons c cs ih =>
    intro y e
    rw [List.cons_append, quoteRun, quoteRun]
    by_cases h1 : (c = '"' && !e : Bool)
    · rw [if_pos h1, if_pos h1]
      rfl
    · rw [if_neg h1, if_neg h1]
      by_cases h2 : (c = '\\' && !e : Bool)
      · rw [if_pos h2, if_pos h2, ih]
      · rw [if_neg h2, if_neg h2, ih]

theorem braceRun_nobrace : ∀ (l : List Char) (lv : Nat),
    (∀ c ∈ l, c ≠ '{' ∧ c ≠ '}') → braceRun l lv = some lv := by
  intro l
  induction l with
  | nil => intro lv _; rfl
  | cons c cs ih =>
    intro lv hc
    obtain ⟨h1, h2⟩ := hc c (by simp)
    rw [braceRun, if_neg h1, if_neg h2]
    exact ih lv fun x hx => hc x (by simp [hx])

theorem quoteRun_noquote : ∀ (l : List Char),
    (∀ c ∈ l, c ≠ '"' ∧ c ≠ '\\') → quoteRun l false = some false := by
  intro l
  induction l with
  | nil => intro _; rfl
  | cons c cs ih =>
    intro hc
    obtain ⟨h1, h2⟩ := hc c (by simp)
    rw [quoteRun, if_neg (by simp [h1]), if_neg (by simp [h2])]
    exact ih fun x hx => hc x (by simp [hx])

theorem quoteRun_step : ∀ (l : List Char), l ≠ [] →
    (∀ c ∈ l, c ≠ '"' ∧ c ≠ '\\') → ∀ e, quoteRun l e = some false := by
  intro l
  cases l with
  | nil => intro h; exact absurd rfl h
  | cons c cs =>
    intro _ hc e
    obtain ⟨h1, h2⟩ := hc c (by simp)
    rw [quoteRun, if_neg (by simp [h1]), if_neg (by simp [h2])]
    exact quoteRun_noquote cs fun x hx => hc x (by simp [hx])

theorem braceClose_run : ∀ (x : List Char) (lv r : Nat),
    braceClose x lv = some r → braceRun (x.take r) lv = some 1 := by
  intro x
  induction x with
  | nil => intro lv r h; simp [braceClose] at h
  | cons c cs ih =>
    intro lv r h
    rw [braceClose] at h
    by_cases h1 : c = '{'
    · rw [if_pos h1] at h
      cases hb : braceClose cs (lv + 1) with
      | none => rw [hb] at h; simp at h
      | some r' =>
        rw [hb] at h
        simp only [Option.map_some', Option.some.injEq] at h
        subst h
        rw [List.take_succ_cons, braceRun, if_pos h1]
        exact ih _ _ hb
    · rw [if_neg h1] at h
      by_cases h2 : c = '}'
      · rw [if_pos h2] at h
        by_cases h3 : lv = 1
        · rw [if_pos h3] at h
          injection h with h
          subst h
          rw [List.take_zero, braceRun, h3]
        · rw [if_neg h3] at h
          cases hb : braceClose cs (lv - 1) with
          | none => rw [hb] at h; simp at h
          | some r' =>
            rw [hb] at h
            simp only [Option.map_some', Option.some.injEq] at h
            subst h
            rw [List.take_succ_cons, braceRun, if_neg h1, if_pos h2, if_neg h3]
            exact ih _ _ hb
      · rw [if_neg h2] at h
        cases hb : braceClose cs lv with
        | none => rw [hb] at h; simp at h
        | some r' =>
          rw [hb] at h
          simp only [Option.map_some', Option.some.injEq] at h
          subst h
          rw [List.take_succ_cons, braceRun, if_neg h1, if_neg h2]
          exact ih _ _ hb

theorem quoteClose_run : ∀ (x : List Char) (e : Bool) (r : Nat),
    quoteClose x e = some r → quoteRun (x.take r) e = some false := by
  intro x
  induction x with
  | nil => intro e r h; simp [quoteClose] at h
  | cons c cs ih =>
    intro e r h
    rw [quoteClose] at h
    by_cases h1 : (c = '"' && !e : Bool)
    · rw [if_pos h1] at h
      injection h with h
      subst h
      rw [List.take_zero, quoteRun]
      simp only [Bool.and_eq_true, decide_eq_true_eq] at h1
      obtain ⟨-, h1b⟩ := h1
      simp at h1b
      subst h1b
      rfl
    · rw [if_neg h1] at h
      by_cases h2 : (c = '\\' && !e : Bool)
      · rw [if_pos h2] at h
        cases hb : quoteClose cs true with
        | none => rw [hb] at h; simp at h
        | some r' =>
          rw [hb] at h
          simp only [Option.map_some', Option.some.injEq] at h
          subst h
          rw [List.take_succ_cons, quoteRun, if_neg h1, if_pos h2]
          exact ih _ _ hb
      · rw [if_neg h2] at h
        cases hb : quoteClose cs false with
        | none => rw [hb] at h; simp at h
        | some r' =>
          rw [hb] at h
          simp only [Option.map_some', Option.some.injEq] at h
          subst h
          rw [List.take_succ_cons, quoteRun, if_neg h1, if_neg h2]
          exact ih _ _ hb

theorem braceClose_append_run : ∀ (R l : List Char) (lv lv' : Nat),
    braceRun R lv = some lv' →
    braceClose (R ++ l) lv = (braceClose l lv').map (· + R.length) := by
  intro R
  induction R with
  | nil =>
    intro l lv lv' h
    injection h with h
    subst h
    simp
  | cons c cs ih =>
    intro l lv lv' h
    rw [braceRun] at h
    rw [List.cons_append, braceClose]
    by_cases h1 : c = '{'
    · rw [if_pos h1] at h
      rw [if_pos h1, ih l _ _ h]
      cases braceClose l lv' <;> simp [Nat.add_comm, Nat.add_assoc, Nat.add_left_comm]
    · rw [if_neg h1] at h
      by_cases h2 : c = '}'
      · rw [if_pos h2] at h
        by_cases h3 : lv = 1
        · rw [if_pos h3] at h
          exact absurd h (by simp)
        · rw [if_neg h3] at h
          rw [if_neg h1, if_pos h2, if_neg h3, ih l _ _ h]
          cases braceClose l lv' <;> simp [Nat.add_comm, Nat.add_assoc, Nat.add_left_comm]
      · rw [if_neg h2] at h
        rw [if_neg h1, if_neg h2, ih l _ _ h]
        cases braceClose l lv' <;> simp [Nat.add_comm, Nat.add_assoc, Nat.add_left_comm]

theorem quoteClose_append_run : ∀ (R l : List Char) (e e' : Bool),
    quoteRun R e = some e' →
    quoteClose (R ++ l) e = (quoteClose l e').map (· + R.length) := by
  intro R
  induction R with
  | nil =>
    intro l e e' h
    injection h with h
    subst h
    simp
  | cons c cs ih =>
    intro l e e' h
    rw [quoteRun] at h
    rw [List.cons_append, quoteClose]
    by_cases h1 : (c = '"' && !e : Bool)
    · rw [if_pos h1] at h
      exact absurd h (by simp)
    · rw [if_neg h1] at h
      by_cases h2 : (c = '\\' && !e : Bool)
      · rw [if_pos h2] at h
        rw [if_neg h1, if_pos h2, ih l _ _ h]
        cases quoteClose l e' <;> simp [Nat.add_comm, Nat.add_assoc, Nat.add_left_comm]
      · rw [if_neg h2] at h
        rw [if_neg h1, if_neg h2, ih l _ _ h]
        cases quoteClose l e' <;> simp [Nat.add_comm, Nat.add_assoc, Nat.add_left_comm]

theorem optSomeBind {α β : Type} (a : α) (f : α → Option β) : (some a).bind f = f a := rfl

theorem optNoneBind {α β : Type} (f : α → Option β) : (none : Option α).bind f = none := rfl

/-- A stripped list is the original minus a whitespace prefix and suffix. -/
theorem pyStrip_decomp (l : List Char) :
    ∃ w1 w2, l = w1 ++ pyStrip l ++ w2 ∧
      (∀ c ∈ w1, pyIsSpace c = true) ∧ (∀ c ∈ w2, pyIsSpace c = true) := by
  refine ⟨l.takeWhile pyIsSpace,
    ((l.dropWhile pyIsSpace).reverse.takeWhile pyIsSpace).reverse, ?_, ?_, ?_⟩
  · conv_lhs => rw [← List.takeWhile_append_dropWhile (p := pyIsSpace) (l := l)]
    rw [List.append_assoc]
    congr 1
    rw [pyStrip, ← List.reverse_append, List.takeWhile_append_dropWhile,
      List.reverse_reverse]
  · intro c hc
    exact List.mem_takeWhile_imp hc
  · intro c hc
    rw [List.mem_reverse] at hc
    exact List.mem_takeWhile_imp hc

theorem ws_not_special {c : Char} (h : pyIsSpace c = true) :
    c ≠ '{' ∧ c ≠ '}' ∧ c ≠ '"' ∧ c ≠ '\\' := by
  refine ⟨?_, ?_, ?_, ?_⟩ <;> intro hk <;> subst hk <;> exact absurd h (by decide)

theorem braceRun_strip {l : List Char} {k : Nat} (h : braceRun l 1 = some k) :
    braceRun (pyStrip l) 1 = some k := by
  obtain ⟨w1, w2, hdec, hw1, hw2⟩ := pyStrip_decomp l
  have h1 : braceRun w1 1 = some 1 :=
    braceRun_nobrace _ _ fun c hc =>
      ⟨(ws_not_special (hw1 c hc)).1, (ws_not_special (hw1 c hc)).2.1⟩
  rw [hdec, List.append_assoc, braceRun_append, h1, optSomeBind, braceRun_append] at h
  cases hm : braceRun (pyStrip l) 1 with
  | none =>
    rw [hm, optNoneBind] at h
    exact absurd h (by simp)
  | some L =>
    rw [hm, optSomeBind] at h
    have h2 : braceRun w2 L = some L :=
      braceRun_nobrace _ _ fun c hc =>
        ⟨(ws_not_special (hw2 c hc)).1, (ws_not_special (hw2 c hc)).2.1⟩
    rw [h2] at h
    injection h with h
    exact congrArg some h

theorem quoteRun_strip {l : List Char} {st : Bool} (h : quoteRun l false = some st) :
    ∃ st2, quoteRun (pyStrip l) false = some st2 := by
  obtain ⟨w1, w2, hdec, hw1, hw2⟩ := pyStrip_decomp l
  have h1 : quoteRun w1 false = some false :=
    quoteRun_noquote _ fun c hc =>
      ⟨(ws_not_special (hw1 c hc)).2.2.1, (ws_not_special (hw1 c hc)).2.2.2⟩
  rw [hdec, List.append_assoc, quoteRun_append, h1, optSomeBind, quoteRun_append] at h
  cases hm : quoteRun (pyStrip l) false with
  | none =>
    rw [hm, optNoneBind] at h
    exact absurd h (by simp)
  | some st2 => exact ⟨st2, rfl⟩

theorem lower_letter_not_special {c α : Char} (h : pyToLower c = α)
    (hα : α = 'a' ∨ α = 'n' ∨ α = 'd') :
    c ≠ '{' ∧ c ≠ '}' ∧ c ≠ '"' ∧ c ≠ '\\' := by
  refine ⟨?_, ?_, ?_, ?_⟩ <;> intro hk <;> subst hk <;>
    rcases hα with h1 | h1 | h1 <;> subst h1 <;> exact absurd h (by decide)

/-- The characters skipped over by a top-level `and` separator (the token
itself and the following whitespace) are none of the scanner-relevant
specials. -/
theorem and_gap_chars {s : List Char} {i : Nat} (h : matches_and_at s i = 3) :
    ∀ c ∈ (s.drop i).take (skipWs s (i + 3) - i),
      c ≠ '{' ∧ c ≠ '}' ∧ c ≠ '"' ∧ c ≠ '\\' := by
  have hlen : ¬(i + 3 > s.length) := by
    intro hk
    rw [matches_and_at, if_pos hk] at h
    exact absurd h (by decide)
  have hand : lowerStr (sliceOf s i (i + 3)) = ['a', 'n', 'd'] := by
    by_contra hk
    rw [matches_and_at, if_neg hlen, if_pos hk] at h
    exact absurd h (by decide)
  intro c hc
  obtain ⟨n, hn⟩ := List.mem_iff_get?.mp hc
  have hnlt : n < skipWs s (i + 3) - i := by
    have h1 := get?_lt hn
    have h2 : ((s.drop i).take (skipWs s (i + 3) - i)).length ≤ skipWs s (i + 3) - i := by
      rw [List.length_take]
      omega
    omega
  rw [List.get?_take hnlt, List.get?_drop] at hn
  rcases lt_or_ge n 3 with h3 | h3
  · -- inside the (case-insensitive) token `and`
    have hsl : (lowerStr (sliceOf s i (i + 3))).get? n = some (pyToLower c) := by
      rw [lowerStr, List.get?_map, sliceOf, List.get?_take (by omega), List.get?_drop, hn]
      rfl
    rw [hand] at hsl
    apply lower_letter_not_special (c := c) (α := pyToLower c) rfl
    interval_cases n <;> injection hsl with hsl <;> rw [← hsl] <;> simp
  · -- inside the whitespace run
    have hws := skipWs_ge s (i + 3)
    obtain ⟨c2, hc2, hc2w⟩ := @skipWs_inside s (i + 3) (i + n) (by omega) (by omega)
    rw [hn] at hc2
    injection hc2 with hc2
    subst hc2
    exact ws_not_special hc2w

/-- Every item produced by the top-level splitter of a brace-balanced value
is itself brace-balanced (scanning it from level 1 neither stops nor changes
the level). -/
theorem splitLoop_braceRun {s : List Char} : ∀ fuel i level buf,
    s.length + 1 ≤ fuel + i →
    braceRun buf 1 = some (level + 1) →
    braceRun (s.drop i) (level + 1) = some 1 →
    ∀ x ∈ splitLoop s fuel i level buf, braceRun x 1 = some 1 := by
  intro fuel
  induction fuel with
  | zero =>
    intro i level buf hf hbuf hsuf x hx
    have hdrop : s.drop i = [] := List.drop_eq_nil_of_le (by omega)
    rw [hdrop, braceRun] at hsuf
    injection hsuf with hsuf
    have hl0 : level = 0 := by omega
    subst hl0
    simp only [splitLoop] at hx
    by_cases ht : pyStrip buf = []
    · rw [if_pos ht] at hx
      simp at hx
    · rw [if_neg ht] at hx
      rw [List.mem_singleton] at hx
      subst hx
      exact braceRun_strip hbuf
  | succ fuel ih =>
    intro i level buf hf hbuf hsuf x hx
    simp only [splitLoop] at hx
    cases hg : s.get? i with
    | none =>
      simp only [hg] at hx
      have hlen : s.length ≤ i := List.get?_eq_none.mp hg
      have hdrop : s.drop i = [] := List.drop_eq_nil_of_le hlen
      rw [hdrop, braceRun] at hsuf
      injection hsuf with hsuf
      have hl0 : level = 0 := by omega
      subst hl0
      by_cases ht : pyStrip buf = []
      · rw [if_pos ht] at hx
        simp at hx
      · rw [if_neg ht] at hx
        rw [List.mem_singleton] at hx
        subst hx
        exact braceRun_strip hbuf
    | some c =>
      simp only [hg] at hx
      have hcons := drop_eq_cons_of_get? hg
      by_cases h1 : c = '{'
      · rw [if_pos h1] at hx
        subst h1
        rw [hcons, braceRun, if_pos rfl] at hsuf
        refine ih (i + 1) (level + 1) (buf ++ ['{']) (by omega) ?_ hsuf x hx
        rw [braceRun_append, hbuf, optSomeBind]
        rfl
      · rw [if_neg h1] at hx
        by_cases h2 : c = '}'
        · rw [if_pos h2] at hx
          subst h2
          rw [hcons, braceRun, if_neg (by decide), if_pos rfl] at hsuf
          by_cases h3 : level + 1 = 1
          · rw [if_pos h3] at hsuf
            exact absurd hsuf (by simp)
          · rw [if_neg h3] at hsuf
            have hlpos : 1 ≤ level := by omega
            refine ih (i + 1) (level - 1) (buf ++ ['}']) (by omega) ?_ ?_ x hx
            · rw [braceRun_append, hbuf, optSomeBind, braceRun, if_neg (by decide),
                if_pos rfl, if_neg h3, braceRun]
              congr 1
              omega
            · have e1 : level - 1 + 1 = level + 1 - 1 := by omega
              rw [e1]
              exact hsuf
        · rw [if_neg h2] at hx
          by_cases h4 : level = 0 ∧ matches_and_at s i = 3
          · rw [if_pos h4] at hx
            obtain ⟨hl0, hm3⟩ := h4
            subst hl0
            -- split the suffix into the skipped separator and the rest
            have hskip := skipWs_ge s (i + 3)
            have hmle : i + 3 ≤ s.length := by
              by_contra hc
              rw [matches_and_at, if_pos (by omega)] at hm3
              exact absurd hm3 (by decide)
            have hsplit : s.drop i =
                (s.drop i).take (skipWs s (i + 3) - i) ++ s.drop (skipWs s (i + 3)) := by
              conv_lhs => rw [← List.take_append_drop (skipWs s (i + 3) - i) (s.drop i)]
              congr 1
              rw [List.drop_drop]
              congr 1
              omega
            have hmid : braceRun ((s.drop i).take (skipWs s (i + 3) - i)) 1 = some 1 :=
              braceRun_nobrace _ _ fun c2 hc2 =>
                ⟨(and_gap_chars hm3 c2 hc2).1, (and_gap_chars hm3 c2 hc2).2.1⟩
            rw [hsplit, braceRun_append, hmid, optSomeBind] at hsuf
            have hsuf2 : braceRun (s.drop (skipWs s (i + 3))) (0 + 1) = some 1 := hsuf
            by_cases hae : pyStrip buf = []
            · rw [if_pos hae] at hx
              exact ih (skipWs s (i + 3)) 0 [] (by omega) rfl hsuf2 x hx
            · rw [if_neg hae] at hx
              rcases List.mem_cons.mp hx with hx1 | hx2
              · subst hx1
                exact braceRun_strip hbuf
              · exact ih (skipWs s (i + 3)) 0 [] (by omega) rfl hsuf2 x hx2
          · rw [if_neg h4] at hx
            rw [hcons, braceRun, if_neg h1, if_neg h2] at hsuf
            refine ih (i + 1) level (buf ++ [c]) (by omega) ?_ hsuf x hx
            rw [braceRun_append, hbuf, optSomeBind, braceRun, if_neg h1, if_neg h2, braceRun]

/-- Every item produced by the top-level splitter of a quote-safe value is
itself quote-safe (scanning it from an unescaped state never stops at an
unescaped quote). -/
theorem splitLoop_quoteRun {s : List Char} : ∀ fuel i level buf st,
    quoteRun buf false = some st →
    quoteRun (s.drop i) st = some false →
    ∀ x ∈ splitLoop s fuel i level buf, ∃ st2, quoteRun x false = some st2 := by
  intro fuel
  induction fuel with
  | zero =>
    intro i level buf st hbuf _ x hx
    simp only [splitLoop] at hx
    by_cases ht : pyStrip buf = []
    · rw [if_pos ht] at hx
      simp at hx
    · rw [if_neg ht] at hx
      rw [List.mem_singleton] at hx
      subst hx
      exact quoteRun_strip hbuf
  | succ fuel ih =>
    intro i level buf st hbuf hsuf x hx
    simp only [splitLoop] at hx
    cases hg : s.get? i with
    | none =>
      simp only [hg] at hx
      by_cases ht : pyStrip buf = []
      · rw [if_pos ht] at hx
        simp at hx
      · rw [if_neg ht] at hx
        rw [List.mem_singleton] at hx
        subst hx
        exact quoteRun_strip hbuf
    | some c =>
      simp only [hg] at hx
      have hcons := drop_eq_cons_of_get? hg
      rw [hcons, quoteRun] at hsuf
      by_cases hq1 : (c = '"' && !st : Bool)
      · rw [if_pos hq1] at hsuf
        exact absurd hsuf (by simp)
      · rw [if_neg hq1] at hsuf
        have hstep : ∀ (c' : Char), c' = c → quoteRun (buf ++ [c]) false =
            some (c = '\\' && !st : Bool) := by
          intro c' _
          rw [quoteRun_append, hbuf, optSomeBind, quoteRun, if_neg hq1]
          by_cases hq2 : (c = '\\' && !st : Bool)
          · rw [if_pos hq2, quoteRun, hq2]
          · rw [if_neg hq2, quoteRun]
            simp only [Bool.not_eq_true] at hq2
            rw [hq2]
        by_cases h1 : c = '{'
        · rw [if_pos h1] at hx
          rw [if_neg (by subst h1; simp)] at hsuf
          refine ih (i + 1) (level + 1) (buf ++ [c]) _ (hstep c rfl) ?_ x hx
          rwa [show ((c = '\\' && !st : Bool)) = false by subst h1; simp]
        · rw [if_neg h1] at hx
          by_cases h2 : c = '}'
          · rw [if_pos h2] at hx
            rw [if_neg (by subst h2; simp)] at hsuf
            refine ih (i + 1) (level - 1) (buf ++ [c]) _ (hstep c rfl) ?_ x hx
            rwa [show ((c = '\\' && !st : Bool)) = false by subst h2; simp]
          · rw [if_neg h2] at hx
            by_cases h4 : level = 0 ∧ matches_and_at s i = 3
            · rw [if_pos h4] at hx
              obtain ⟨hl0, hm3⟩ := h4
              have hskip := skipWs_ge s (i + 3)
              have hmle : i + 3 ≤ s.length := by
                by_contra hc
                rw [matches_and_at, if_pos (by omega)] at hm3
                exact absurd hm3 (by decide)
              have hsplit : s.drop i =
                  (s.drop i).take (skipWs s (i + 3) - i) ++ s.drop (skipWs s (i + 3)) := by
                conv_lhs => rw [← List.take_append_drop (skipWs s (i + 3) - i) (s.drop i)]
                congr 1
                rw [List.drop_drop]
                congr 1
                omega
              have hmne : (s.drop i).take (skipWs s (i + 3) - i) ≠ [] := by
                intro hk
                have := congrArg List.length hk
                rw [List.length_take, List.length_drop] at this
                simp at this
                omega
              have hmid : quoteRun ((s.drop i).take (skipWs s (i + 3) - i)) st = some false :=
                quoteRun_step _ hmne (fun c2 hc2 =>
                  ⟨(and_gap_chars hm3 c2 hc2).2.2.1, (and_gap_chars hm3 c2 hc2).2.2.2⟩) st
              have hsuf2 : quoteRun (s.drop (skipWs s (i + 3))) false = some false := by
                have h5 : quoteRun (s.drop i) st = some false := by
                  rw [hcons, quoteRun, if_neg hq1]
                  exact hsuf
                rw [hsplit, quoteRun_append, hmid, optSomeBind] at h5
                exact h5
              by_cases hae : pyStrip buf = []
              · rw [if_pos hae] at hx
                exact ih (skipWs s (i + 3)) level [] false rfl hsuf2 x hx
              · rw [if_neg hae] at hx
                rcases List.mem_cons.mp hx with hx1 | hx2
                · subst hx1
                  exact quoteRun_strip hbuf
                · exact ih (skipWs s (i + 3)) level [] false rfl hsuf2 x hx2
            · rw [if_neg h4] at hx
              by_cases hq2 : (c = '\\' && !st : Bool)
              · rw [if_pos hq2] at hsuf
                refine ih (i + 1) level (buf ++ [c]) _ (hstep c rfl) ?_ x hx
                rwa [show ((c = '\\' && !st : Bool)) = true from hq2]
              · rw [if_neg hq2] at hsuf
                refine ih (i + 1) level (buf ++ [c]) _ (hstep c rfl) ?_ x hx
                rwa [show ((c = '\\' && !st : Bool)) = false by
                  simp only [Bool.not_eq_true] at hq2; rw [hq2]]

theorem length_dropWhile_le (p : Char → Bool) (l : List Char) :
    (l.dropWhile p).length ≤ l.length := by
  conv_rhs => rw [← List.takeWhile_append_dropWhile (p := p) (l := l)]
  rw [List.length_append]
  omega

theorem pyStrip_length_le (l : List Char) : (pyStrip l).length ≤ l.length := by
  rw [pyStrip, List.length_reverse]
  calc ((l.dropWhile pyIsSpace).reverse.dropWhile pyIsSpace).length
      ≤ (l.dropWhile pyIsSpace).reverse.length := length_dropWhile_le _ _
    _ = (l.dropWhile pyIsSpace).length := List.length_reverse _
    _ ≤ l.length := length_dropWhile_le _ _

/-- Each additional split item costs at least four characters of the value
(the separator `and` plus whitespace), so twice the item count is bounded by
the remaining text plus slack. -/
theorem splitLoop_count {s : List Char} : ∀ fuel i level buf,
    2 * (splitLoop s fuel i level buf).length ≤ 2 + buf.length + (s.length - i) := by
  intro fuel
  induction fuel with
  | zero =>
    intro i level buf
    simp only [splitLoop]
    by_cases ht : pyStrip buf = []
    · rw [if_pos ht]
      simp
    · rw [if_neg ht]
      rw [List.length_singleton]
      omega
  | succ fuel ih =>
    intro i level buf
    simp only [splitLoop]
    cases hg : s.get? i with
    | none =>
      simp only [hg]
      by_cases ht : pyStrip buf = []
      · rw [if_pos ht]
        simp
      · rw [if_neg ht]
        rw [List.length_singleton]
        omega
    | some c =>
      simp only [hg]
      have hi : i < s.length := get?_lt hg
      by_cases h1 : c = '{'
      · rw [if_pos h1]
        have := ih (i + 1) (level + 1) (buf ++ [c])
        rw [List.length_append] at this
        simp only [List.length_cons, List.length_nil] at this
        omega
      · rw [if_neg h1]
        by_cases h2 : c = '}'
        · rw [if_pos h2]
          have := ih (i + 1) (level - 1) (buf ++ [c])
          rw [List.length_append] at this
          simp only [List.length_cons, List.length_nil] at this
          omega
        · rw [if_neg h2]
          by_cases h4 : level = 0 ∧ matches_and_at s i = 3
          · rw [if_pos h4]
            have hm3 := h4.2
            have hmle : i + 3 ≤ s.length := by
              by_contra hc
              rw [matches_and_at, if_pos (by omega)] at hm3
              exact absurd hm3 (by decide)
            have hskip := skipWs_ge s (i + 3)
            have hrest := ih (skipWs s (i + 3)) level []
            simp only [List.length_nil] at hrest
            by_cases hae : pyStrip buf = []
            · rw [if_pos hae]
              omega
            · rw [if_neg hae]
              rw [List.length_cons]
              omega
          · rw [if_neg h4]
            have := ih (i + 1) level (buf ++ [c])
            rw [List.length_append] at this
            simp only [List.length_cons, List.length_nil] at this
            omega

/-- When the split yields at least seven items, the first item is at least
eleven characters shorter than the text scanned (room for
`" and others"`). -/
theorem splitLoop_first {s : List Char} : ∀ fuel i level buf,
    7 ≤ (splitLoop s fuel i level buf).length →
    ((splitLoop s fuel i level buf).headI).length + 11 ≤ buf.length + (s.length - i) := by
  intro fuel
  induction fuel with
  | zero =>
    intro i level buf h7
    simp only [splitLoop] at h7
    by_cases ht : pyStrip buf = []
    · rw [if_pos ht] at h7
      simp at h7
    · rw [if_neg ht] at h7
      rw [List.length_singleton] at h7
      omega
  | succ fuel ih =>
    intro i level buf h7
    simp only [splitLoop] at h7 ⊢
    cases hg : s.get? i with
    | none =>
      simp only [hg] at h7
      by_cases ht : pyStrip buf = []
      · rw [if_pos ht] at h7
        simp at h7
      · rw [if_neg ht] at h7
        rw [List.length_singleton] at h7
        omega
    | some c =>
      simp only [hg] at h7 ⊢
      have hi : i < s.length := get?_lt hg
      by_cases h1 : c = '{'
      · rw [if_pos h1] at h7 ⊢
        have := ih (i + 1) (level + 1) (buf ++ [c]) h7
        rw [List.length_append] at this
        simp only [List.length_cons, List.length_nil] at this
        omega
      · rw [if_neg h1] at h7 ⊢
        by_cases h2 : c = '}'
        · rw [if_pos h2] at h7 ⊢
          have := ih (i + 1) (level - 1) (buf ++ [c]) h7
          rw [List.length_append] at this
          simp only [List.length_cons, List.length_nil] at this
          omega
        · rw [if_neg h2] at h7 ⊢
          by_cases h4 : level = 0 ∧ matches_and_at s i = 3
          · rw [if_pos h4] at h7 ⊢
            have hm3 := h4.2
            have hmle : i + 3 ≤ s.length := by
              by_contra hc
              rw [matches_and_at, if_pos (by omega)] at hm3
              exact absurd hm3 (by decide)
            have hskip := skipWs_ge s (i + 3)
            by_cases hae : pyStrip buf = []
            · rw [if_pos hae] at h7 ⊢
              have := ih (skipWs s (i + 3)) level [] h7
              simp only [List.length_nil] at this
              omega
            · rw [if_neg hae] at h7 ⊢
              rw [List.length_cons] at h7
              have hcnt := @splitLoop_count s fuel (skipWs s (i + 3)) level []
              simp only [List.length_nil] at hcnt
              rw [List.headI_cons]
              have hle := pyStrip_length_le buf
              omega
          · rw [if_neg h4] at h7 ⊢
            have := ih (i + 1) level (buf ++ [c]) h7
            rw [List.length_append] at this
            simp only [List.length_cons, List.length_nil] at this
            omega

theorem transform_some_inv {v R : List Char}
    (h : transform_author_value_if_needed v = some R) :
    author_already_others v = false ∧
    6 < (split_authors_top_level v).length ∧
    pyStrip ((split_authors_top_level v).headI) ≠ [] ∧
    R = pyStrip ((split_authors_top_level v).headI) ++ (" and others").data := by
  simp only [transform_author_value_if_needed] at h
  by_cases h1 : author_already_others v = true
  · rw [if_pos h1] at h
    exact absurd h (by simp)
  · rw [if_neg h1] at h
    by_cases h2 : (split_authors_top_level v).length ≤ 6
    · rw [if_pos h2] at h
      exact absurd h (by simp)
    · rw [if_neg h2] at h
      by_cases h3 : pyStrip ((split_authors_top_level v).headI) = []
      · rw [if_pos h3] at h
        exact absurd h (by simp)
      · rw [if_neg h3] at h
        injection h with h
        exact ⟨by simpa using h1, by omega, h3, h.symm⟩

theorem already_others_append (item : List Char) :
    author_already_others (item ++ (" and others").data) = true := by
  have hlen : (item ++ (" and others").data).length = item.length + 11 := by
    rw [List.length_append]
    rfl
  have hdropn : ∀ n, (item ++ (" and others").data).drop (item.length + n) =
      (" and others").data.drop n := by
    intro n
    rw [← List.drop_drop, List.drop_left]
  rw [author_already_others, List.any_eq_true]
  refine ⟨item.length + 1, List.mem_range.mpr (by omega), ?_⟩
  simp only [andOthersAt]
  have hw : ((List.takeWhile pyIsSpace
      ((item ++ (" and others").data).drop (item.length + 1 + 3)))).length = 1 := by
    rw [show item.length + 1 + 3 = item.length + 4 from by omega, hdropn 4]
    rfl
  have hsliceA : sliceOf (item ++ (" and others").data) (item.length + 1)
      (item.length + 1 + 3) = ['a', 'n', 'd'] := by
    rw [sliceOf, hdropn 1,
      show item.length + 1 + 3 - (item.length + 1) = 3 from by omega]
    rfl
  have hprev : (item ++ (" and others").data).get? (item.length + 1 - 1) = some ' ' := by
    rw [show item.length + 1 - 1 = item.length from by omega,
      List.get?_append_right (by omega)]
    rw [Nat.sub_self]
    rfl
  have hsliceB : sliceOf (item ++ (" and others").data) (item.length + 1 + 3 + 1)
      (item.length + 1 + 9 + 1) = ['o', 't', 'h', 'e', 'r', 's'] := by
    rw [sliceOf, show item.length + 1 + 3 + 1 = item.length + 5 from by omega, hdropn 5,
      show item.length + 1 + 9 + 1 - (item.length + 5) = 6 from by omega]
    rfl
  have hend : item.length + 1 + 9 + 1 ≥ (item ++ (" and others").data).length := by
    rw [hlen]
  rw [hw, hsliceA, hsliceB, hprev, decide_eq_true hend]
  simp only [Bool.and_eq_true, Bool.or_eq_true, decide_eq_true_eq]
  refine ⟨⟨⟨⟨by decide, ?_⟩, by omega⟩, by decide⟩, Or.inl trivial⟩
  simp [pyIsAlnum]

theorem transform_append_others_none (item : List Char) :
    transform_author_value_if_needed (item ++ (" and others").data) = none := by
  simp only [transform_author_value_if_needed]
  rw [if_pos (already_others_append item)]

theorem headI_mem {l : List (List Char)} (h : l ≠ []) : l.headI ∈ l := by
  cases l with
  | nil => exact absurd rfl h
  | cons a t => simp [List.headI]

/-- The replacement value of the author pass is never longer than the value
it replaces (with at least seven authors the first item leaves room for
`" and others"`). -/
theorem transform_shrink {v R : List Char}
    (h : transform_author_value_if_needed v = some R) : R.length ≤ v.length := by
  obtain ⟨-, h7, -, hR⟩ := transform_some_inv h
  have hfirst := @splitLoop_first v (v.length + 1) 0 0 [] (by
    rw [split_authors_top_level] at h7
    omega)
  rw [← split_authors_top_level] at hfirst
  simp only [List.length_nil, Nat.zero_add, Nat.sub_zero] at hfirst
  have hstrip := pyStrip_length_le ((split_authors_top_level v).headI)
  have hRlen : R.length = (pyStrip ((split_authors_top_level v).headI)).length + 11 := by
    rw [hR, List.length_append]
    rfl
  omega

/-- The author pass never lengthens the remainder of the document. -/
theorem processLoop_len_le {content : List Char} :
    ∀ fuel i cursor, cursor ≤ i →
    (processLoop content fuel i cursor).1.length ≤ content.length - cursor := by
  intro fuel
  induction fuel with
  | zero =>
    intro i cursor _
    rw [processLoop, List.length_drop]
  | succ fuel ih =>
    intro i cursor hci
    rw [processLoop]
    cases hf : find_next_author_field content i with
    | none =>
      simp only
      rw [List.length_drop]
    | some tup =>
      obtain ⟨fs, vs, ve, d, v⟩ := tup
      rw [find_next_author_field] at hf
      obtain ⟨hif, hfv, hvv, hvl, hvs, hdel⟩ := findAuthorF_facts _ _ _ _ _ _ _ hf
      cases ht : transform_author_value_if_needed v with
      | none =>
        simp only [ht]
        exact ih (ve + 1) cursor (by omega)
      | some r =>
        simp only [ht]
        have h1 := ih (ve + 1) ve (by omega)
        have h2 : r.length ≤ ve - vs := by
          have h3 := transform_shrink ht
          have h4 : v.length = ve - vs := by
            rw [hvs]
            exact sliceOf_length (by omega) (by omega)
          omega
        have h5 : (sliceOf content cursor vs).length = vs - cursor :=
          sliceOf_length (by omega) (by omega)
        rw [List.length_append, List.length_append, h5]
        omega

theorem sim_drop {pre : List Char} : ∀ (X : List Char) (k : Nat),
    (pre ++ X).drop (pre.length + k) = X.drop k := by
  intro X k
  rw [← List.drop_drop, List.drop_left]

/-- The run-2 text window starting at scan offset `a` agrees with the input
window at `a`, as long as the output prefix up to `J` is a faithful copy. -/
theorem sim_window {C O pre : List Char} {cursor a J : Nat}
    (hca : cursor ≤ a) (haJ : a ≤ J)
    (hO : O.take (J - cursor) = sliceOf C cursor J) :
    (C.drop a).take (J - a) =
      ((pre ++ O).drop (pre.length + (a - cursor))).take (J - a) := by
  rw [sim_drop]
  have h1 := congrArg (List.drop (a - cursor)) hO
  rw [sliceOf, List.drop_take, List.drop_take, List.drop_drop] at h1
  rw [show J - cursor - (a - cursor) = J - a from by omega] at h1
  rw [show cursor + (a - cursor) = a from by omega] at h1
  exact h1.symm

theorem sim_prev {C O pre : List Char} {cursor i J : Nat}
    (hci : cursor < i) (hiJ : i ≤ J)
    (hO : O.take (J - cursor) = sliceOf C cursor J) :
    C.get? (i - 1) = (pre ++ O).get? (pre.length + (i - cursor) - 1) := by
  rw [show pre.length + (i - cursor) - 1 = pre.length + (i - 1 - cursor) from by omega,
    List.get?_append_right (by omega), Nat.add_sub_cancel_left]
  rw [show O.get? (i - 1 - cursor) = (O.take (J - cursor)).get? (i - 1 - cursor) from
    (List.get?_take (by omega)).symm]
  rw [hO, sliceOf, List.get?_take (by omega), List.get?_drop]
  congr 1
  omega

theorem processLoop_idem {C : List Char} :
    ∀ fuel1 i cursor pre, cursor ≤ i →
    (cursor = i → i = 0 ∧ pre = []) →
    C.length + 1 ≤ fuel1 + i →
    ∀ fuel2 qcur,
      processLoop (pre ++ (processLoop C fuel1 i cursor).1) fuel2
        (pre.length + (i - cursor)) qcur =
      ((pre ++ (processLoop C fuel1 i cursor).1).drop qcur, 0) := by
  intro fuel1
  induction fuel1 with
  | zero =>
    intro i cursor pre hci hi0 hfuel fuel2 qcur
    have hO : (processLoop C 0 i cursor).1 = C.drop cursor := rfl
    rw [hO]
    have hq : (pre ++ C.drop cursor).length ≤ pre.length + (i - cursor) := by
      rw [List.length_append, List.length_drop]
      omega
    cases fuel2 with
    | zero => rfl
    | succ f2 =>
      rw [processLoop]
      have hfT : find_next_author_field (pre ++ C.drop cursor)
          (pre.length + (i - cursor)) = none := by
        rw [find_next_author_field]
        exact findAuthorF_none_of_end hq _
      simp only [hfT]
  | succ f1 ih =>
    intro i cursor pre hci hi0 hfuel fuel2 qcur
    have hziff : (pre.length + (i - cursor) = 0 ↔ i = 0) := by
      constructor
      · intro h0
        exact (hi0 (by omega)).1
      · intro h0
        obtain ⟨-, hp⟩ := hi0 (by omega)
        rw [hp]
        simp
        omega
    cases hfind : find_next_author_field C i with
    | none =>
      have hO : (processLoop C (f1 + 1) i cursor).1 = C.drop cursor := by
        rw [processLoop, hfind]
      rw [hO]
      cases fuel2 with
      | zero => rfl
      | succ f2 =>
        have htail : (pre ++ C.drop cursor).drop (pre.length + (i - cursor)) =
            C.drop i := by
          rw [sim_drop, List.drop_drop, show cursor + (i - cursor) = i from by omega]
        rw [processLoop]
        cases hf2 : findAuthorF (pre ++ C.drop cursor) (C.length + 1)
            (pre.length + (i - cursor)) with
        | some tup =>
          obtain ⟨fs2, vs2, ve2, d2, v2⟩ := tup
          exfalso
          obtain ⟨hqf, hfv2, hvv2, hvl2, hvs2, hdel2⟩ := findAuthorF_facts _ _ _ _ _ _ _ hf2
          have hwp2 : 1 ≤ pre.length + (i - cursor) →
              (pre ++ C.drop cursor).get? (pre.length + (i - cursor) - 1) =
              C.get? (i - 1) := by
            intro h1q
            have h1i : 1 ≤ i := by
              by_contra hk
              have : i = 0 := by omega
              have := hziff.mpr this
              omega
            have hlt : cursor < i := by
              rcases Nat.lt_or_ge cursor i with hk | hk
              · exact hk
              · have hce : cursor = i := by omega
                obtain ⟨h0, -⟩ := hi0 hce
                omega
            rcases le_or_lt i C.length with hiC | hiC
            · exact (sim_prev hlt hiC rfl).symm
            · rw [List.get?_eq_none.mpr, List.get?_eq_none.mpr]
              · omega
              · rw [List.length_append, List.length_drop]
                omega
          have hw2 : ((pre ++ C.drop cursor).drop (pre.length + (i - cursor))).take
              (vs2 + 1) = (C.drop i).take (vs2 + 1) := by
            rw [htail]
          have hpar := findAuthorF_local (C.length + 1) (pre.length + (i - cursor)) i
            (vs2 + 1) fs2 vs2 ve2 d2 v2 hziff hwp2 hw2 (by omega) hf2
          rw [find_next_author_field] at hfind
          rw [hfind] at hpar
          have hdT : (pre ++ C.drop cursor).drop vs2 =
              C.drop (vs2 - (pre.length + (i - cursor)) + i) := by
            conv_lhs => rw [show vs2 = pre.length + (i - cursor) +
              (vs2 - (pre.length + (i - cursor))) from by omega]
            rw [← List.drop_drop, htail, List.drop_drop]
            congr 1
            omega
          have hparse2 := findAuthorF_parse _ _ _ _ _ _ _ hf2
          rcases hdel2 with ⟨hd2, -⟩ | ⟨hd2, -⟩
          · subst hd2
            rw [parseValueAt, if_pos rfl, ← hdT, hparse2.1 rfl] at hpar
            exact Option.noConfusion hpar
          · subst hd2
            rw [parseValueAt, if_neg (by decide), ← hdT, hparse2.2 rfl] at hpar
            exact Option.noConfusion hpar
        | none =>
          have hstab : findAuthorF (pre ++ C.drop cursor)
              ((pre ++ C.drop cursor).length + 1) (pre.length + (i - cursor)) =
              findAuthorF (pre ++ C.drop cursor) (C.length + 1)
                (pre.length + (i - cursor)) := by
            apply findAuthorF_stable
            · omega
            · rw [List.length_append, List.length_drop]
              omega
          have hfT : find_next_author_field (pre ++ C.drop cursor)
              (pre.length + (i - cursor)) = none := by
            rw [find_next_author_field, hstab]
            exact hf2
          simp only [hfT]
    | some tup =>
      obtain ⟨fs, vs, ve, d, v⟩ := tup
      have hfindF := hfind
      rw [find_next_author_field] at hfindF
      obtain ⟨hif, hfv, hvv, hvl, hvs, hdel⟩ := findAuthorF_facts _ _ _ _ _ _ _ hfindF
      have hparse := findAuthorF_parse _ _ _ _ _ _ _ hfindF
      have hlt : cursor < i ∨ (i = 0 ∧ pre = []) := by
        rcases Nat.lt_or_ge cursor i with hk | hk
        · exact Or.inl hk
        · exact Or.inr (hi0 (by omega))
      cases ht : transform_author_value_if_needed v with
      | none =>
        have hO : (processLoop C (f1 + 1) i cursor).1 =
            (processLoop C f1 (ve + 1) cursor).1 := by
          simp only [processLoop, hfind, ht]
        rw [hO]
        cases fuel2 with
        | zero => rfl
        | succ f2 =>
          have hveC : ve + 1 ≤ C.length := by omega
          have hJ : ve + 1 ≤ firstEditVS C f1 (ve + 1) := firstEditVS_ge f1 (ve + 1) hveC
          have hOt : (processLoop C f1 (ve + 1) cursor).1.take
              (firstEditVS C f1 (ve + 1) - cursor) =
              sliceOf C cursor (firstEditVS C f1 (ve + 1)) :=
            processLoop_take f1 (ve + 1) cursor (firstEditVS C f1 (ve + 1))
              (by omega) (by omega) le_rfl
          have hw2 : (C.drop i).take (firstEditVS C f1 (ve + 1) - i) =
              ((pre ++ (processLoop C f1 (ve + 1) cursor).1).drop
                (pre.length + (i - cursor))).take (firstEditVS C f1 (ve + 1) - i) :=
            sim_window hci (by omega) hOt
          have hwp : 1 ≤ i → C.get? (i - 1) =
              (pre ++ (processLoop C f1 (ve + 1) cursor).1).get?
                (pre.length + (i - cursor) - 1) := by
            intro h1i
            rcases hlt with hk | ⟨hk, -⟩
            · exact sim_prev hk (by omega) hOt
            · omega
          have happ := findAuthorF_local (C.length + 1) i (pre.length + (i - cursor))
            (firstEditVS C f1 (ve + 1) - i) fs vs ve d v hziff.symm hwp hw2
            (by omega) hfindF
          have hwv : (C.drop vs).take (firstEditVS C f1 (ve + 1) - vs) =
              ((pre ++ (processLoop C f1 (ve + 1) cursor).1).drop
                (pre.length + (vs - cursor))).take (firstEditVS C f1 (ve + 1) - vs) :=
            sim_window (by omega) (by omega) hOt
          rw [show pre.length + (vs - cursor) =
            vs - i + (pre.length + (i - cursor)) from by omega] at hwv
          have hvT : sliceOf (pre ++ (processLoop C f1 (ve + 1) cursor).1)
              (vs - i + (pre.length + (i - cursor)))
              (vs - i + (pre.length + (i - cursor)) + (ve - vs)) = v := by
            have h2 := congrArg (List.take (ve - vs)) hwv
            rw [List.take_take, List.take_take,
              show min (ve - vs) (firstEditVS C f1 (ve + 1) - vs) = ve - vs from
                by omega] at h2
            rw [hvs, sliceOf, sliceOf, Nat.add_sub_cancel_left]
            exact h2.symm
          have hpe : parseValueAt (pre ++ (processLoop C f1 (ve + 1) cursor).1)
              (fs - i + (pre.length + (i - cursor)))
              (vs - i + (pre.length + (i - cursor))) d =
              some (fs - i + (pre.length + (i - cursor)),
                vs - i + (pre.length + (i - cursor)),
                vs - i + (pre.length + (i - cursor)) + (ve - vs), d,
                sliceOf (pre ++ (processLoop C f1 (ve + 1) cursor).1)
                  (vs - i + (pre.length + (i - cursor)))
                  (vs - i + (pre.length + (i - cursor)) + (ve - vs))) := by
            rcases hdel with ⟨hd, -⟩ | ⟨hd, -⟩
            · subst hd
              rw [parseValueAt, if_pos rfl,
                braceClose_window hwv (hparse.1 rfl) (by omega)]
            · subst hd
              rw [parseValueAt, if_neg (by decide),
                quoteClose_window hwv (hparse.2 rfl) (by omega)]
          have hlen2 := @processLoop_len_le C f1 (ve + 1) cursor (by omega)
          have hstab : findAuthorF (pre ++ (processLoop C f1 (ve + 1) cursor).1)
              ((pre ++ (processLoop C f1 (ve + 1) cursor).1).length + 1)
              (pre.length + (i - cursor)) =
              findAuthorF (pre ++ (processLoop C f1 (ve + 1) cursor).1)
                (C.length + 1) (pre.length + (i - cursor)) := by
            apply findAuthorF_stable
            · omega
            · rw [List.length_append]
              omega
          have hfT : find_next_author_field
              (pre ++ (processLoop C f1 (ve + 1) cursor).1)
              (pre.length + (i - cursor)) =
              some (fs - i + (pre.length + (i - cursor)),
                vs - i + (pre.length + (i - cursor)),
                vs - i + (pre.length + (i - cursor)) + (ve - vs), d,
                sliceOf (pre ++ (processLoop C f1 (ve + 1) cursor).1)
                  (vs - i + (pre.length + (i - cursor)))
                  (vs - i + (pre.length + (i - cursor)) + (ve - vs))) := by
            rw [find_next_author_field, hstab, happ, hpe]
          rw [processLoop]
          simp only [hfT, hvT, ht]
          rw [show vs - i + (pre.length + (i - cursor)) + (ve - vs) + 1 =
            pre.length + (ve + 1 - cursor) from by omega]
          exact ih (ve + 1) cursor pre (by omega)
            (fun heq => absurd heq (by omega)) (by omega) f2 qcur
      | some R =>
        obtain ⟨-, h7, hne1, hR⟩ := transform_some_inv ht
        rw [split_authors_top_level] at h7
        have hmemH : (split_authors_top_level v).headI ∈ split_authors_top_level v :=
          headI_mem (by
            intro hk
            rw [split_authors_top_level] at hk
            rw [hk] at h7
            simp at h7)
        obtain ⟨hstripH, hneH⟩ := split_item_facts hmemH
        rw [hstripH] at hR
        have hO : (processLoop C (f1 + 1) i cursor).1 =
            sliceOf C cursor vs ++ R ++ (processLoop C f1 (ve + 1) ve).1 := by
          simp only [processLoop, hfind, ht]
        rw [hO]
        cases fuel2 with
        | zero => rfl
        | succ f2 =>
          have hveC : ve + 1 ≤ C.length := by omega
          have hslen : (sliceOf C cursor vs).length = vs - cursor :=
            sliceOf_length (by omega) (by omega)
          have hOt : (sliceOf C cursor vs ++ R ++ (processLoop C f1 (ve + 1) ve).1).take
              (vs - cursor) = sliceOf C cursor vs := by
            rw [List.append_assoc]
            exact List.take_left' hslen
          have hw2 : (C.drop i).take (vs - i) =
              ((pre ++ (sliceOf C cursor vs ++ R ++ (processLoop C f1 (ve + 1) ve).1)).drop
                (pre.length + (i - cursor))).take (vs - i) :=
            sim_window hci (by omega) hOt
          have hwp : 1 ≤ i → C.get? (i - 1) =
              (pre ++ (sliceOf C cursor vs ++ R ++
                (processLoop C f1 (ve + 1) ve).1)).get?
                (pre.length + (i - cursor) - 1) := by
            intro h1i
            rcases hlt with hk | ⟨hk, -⟩
            · exact sim_prev hk (by omega) hOt
            · omega
          have happ := findAuthorF_local (C.length + 1) i (pre.length + (i - cursor))
            (vs - i) fs vs ve d v hziff.symm hwp hw2 (by omega) hfindF
          have hdT : (pre ++ (sliceOf C cursor vs ++ R ++
              (processLoop C f1 (ve + 1) ve).1)).drop
              (vs - i + (pre.length + (i - cursor))) =
              R ++ (processLoop C f1 (ve + 1) ve).1 := by
            rw [show vs - i + (pre.length + (i - cursor)) =
              pre.length + (vs - cursor) from by omega, sim_drop, List.append_assoc]
            exact List.drop_left' hslen
          have hJr : ve + 1 ≤ firstEditVS C f1 (ve + 1) := firstEditVS_ge f1 (ve + 1) hveC
          have hrt : (processLoop C f1 (ve + 1) ve).1.take 1 = sliceOf C ve (ve + 1) := by
            have h1 := processLoop_take f1 (ve + 1) ve (ve + 1) (by omega) (by omega) hJr
            rw [show ve + 1 - ve = 1 from by omega] at h1
            exact h1
          have hlen2 := @processLoop_len_le C (f1 + 1) i cursor hci
          rw [hO] at hlen2
          have hvlen : v.length = ve - vs := by
            rw [hvs]
            exact sliceOf_length (by omega) (by omega)
          rcases hdel with ⟨hd, hdc⟩ | ⟨hd, hdc⟩
          · -- brace-delimited value
            subst hd
            have hbv : braceRun v 1 = some 1 := by
              rw [hvs, sliceOf]
              exact braceClose_run _ _ _ (hparse.1 rfl)
            have hbH : braceRun ((split_authors_top_level v).headI) 1 = some 1 := by
              refine @splitLoop_braceRun v (v.length + 1) 0 0 [] (by omega) rfl ?_ _ hmemH
              rw [List.drop_zero]
              simpa using hbv
            have hbR : braceRun R 1 = some 1 := by
              rw [hR, braceRun_append, hbH, optSomeBind]
              exact braceRun_nobrace _ _ (by decide)
            have hrc : ∃ t, (processLoop C f1 (ve + 1) ve).1 = '}' :: t := by
              have h1 : sliceOf C ve (ve + 1) = ['}'] := by
                rw [sliceOf, show ve + 1 - ve = 1 from by omega, drop_eq_cons_of_get? hdc]
                rfl
              rw [h1] at hrt
              cases hcase : (processLoop C f1 (ve + 1) ve).1 with
              | nil => rw [hcase] at hrt; exact absurd hrt (by simp)
              | cons c0 t0 =>
                rw [hcase, List.take_succ_cons, List.take_zero] at hrt
                injection hrt with hc0 htl0
                exact ⟨t0, by rw [hc0]⟩
            obtain ⟨t0, ht0⟩ := hrc
            have hclose : braceClose (R ++ (processLoop C f1 (ve + 1) ve).1) 1 =
                some R.length := by
              rw [braceClose_append_run _ _ _ _ hbR, ht0, braceClose,
                if_neg (by decide), if_pos rfl, if_pos rfl]
              simp
            have hpe : parseValueAt (pre ++ (sliceOf C cursor vs ++ R ++
                (processLoop C f1 (ve + 1) ve).1))
                (fs - i + (pre.length + (i - cursor)))
                (vs - i + (pre.length + (i - cursor))) '{' =
                some (fs - i + (pre.length + (i - cursor)),
                  vs - i + (pre.length + (i - cursor)),
                  vs - i + (pre.length + (i - cursor)) + R.length, '{',
                  sliceOf (pre ++ (sliceOf C cursor vs ++ R ++
                    (processLoop C f1 (ve + 1) ve).1))
                    (vs - i + (pre.length + (i - cursor)))
                    (vs - i + (pre.length + (i - cursor)) + R.length)) := by
              rw [parseValueAt, if_pos rfl, hdT, hclose]
            have hvR : sliceOf (pre ++ (sliceOf C cursor vs ++ R ++
                (processLoop C f1 (ve + 1) ve).1))
                (vs - i + (pre.length + (i - cursor)))
                (vs - i + (pre.length + (i - cursor)) + R.length) = R := by
              rw [sliceOf, Nat.add_sub_cancel_left, hdT]
              exact List.take_left' rfl
            have htr2 : transform_author_value_if_needed R = none := by
              rw [hR]
              exact transform_append_others_none _
            have hstab : findAuthorF (pre ++ (sliceOf C cursor vs ++ R ++
                (processLoop C f1 (ve + 1) ve).1))
                ((pre ++ (sliceOf C cursor vs ++ R ++
                  (processLoop C f1 (ve + 1) ve).1)).length + 1)
                (pre.length + (i - cursor)) =
                findAuthorF (pre ++ (sliceOf C cursor vs ++ R ++
                  (processLoop C f1 (ve + 1) ve).1))
                  (C.length + 1) (pre.length + (i - cursor)) := by
              apply findAuthorF_stable
              · omega
              · rw [List.length_append]
                omega
            have hfT : find_next_author_field (pre ++ (sliceOf C cursor vs ++ R ++
                (processLoop C f1 (ve + 1) ve).1)) (pre.length + (i - cursor)) =
                some (fs - i + (pre.length + (i - cursor)),
                  vs - i + (pre.length + (i - cursor)),
                  vs - i + (pre.length + (i - cursor)) + R.length, '{',
                  sliceOf (pre ++ (sliceOf C cursor vs ++ R ++
                    (processLoop C f1 (ve + 1) ve).1))
                    (vs - i + (pre.length + (i - cursor)))
                    (vs - i + (pre.length + (i - cursor)) + R.length)) := by
              rw [find_next_author_field, hstab, happ, hpe]
            rw [processLoop]
            simp only [hfT, hvR, htr2]
            have hassoc : pre ++ (sliceOf C cursor vs ++ R ++
                (processLoop C f1 (ve + 1) ve).1) =
                (pre ++ sliceOf C cursor vs ++ R) ++ (processLoop C f1 (ve + 1) ve).1 := by
              simp [List.append_assoc]
            rw [hassoc]
            rw [show vs - i + (pre.length + (i - cursor)) + R.length + 1 =
              (pre ++ sliceOf C cursor vs ++ R).length + (ve + 1 - ve) from by
                simp only [List.length_append, hslen]
                omega]
            exact ih (ve + 1) ve (pre ++ sliceOf C cursor vs ++ R) (by omega)
              (fun heq => absurd heq (by omega)) (by omega) f2 qcur
          · -- quote-delimited value
            subst hd
            have hqv : quoteRun v false = some false := by
              rw [hvs, sliceOf]
              exact quoteClose_run _ _ _ (hparse.2 rfl)
            have hqH : ∃ st0, quoteRun ((split_authors_top_level v).headI) false =
                some st0 := by
              refine @splitLoop_quoteRun v (v.length + 1) 0 0 [] false rfl ?_ _ hmemH
              rw [List.drop_zero]
              exact hqv
            obtain ⟨st0, hst0⟩ := hqH
            have hqR : quoteRun R false = some false := by
              rw [hR, quoteRun_append, hst0, optSomeBind]
              cases st0 <;> decide
            have hrc : ∃ t, (processLoop C f1 (ve + 1) ve).1 = '"' :: t := by
              have h1 : sliceOf C ve (ve + 1) = ['"'] := by
                rw [sliceOf, show ve + 1 - ve = 1 from by omega, drop_eq_cons_of_get? hdc]
                rfl
              rw [h1] at hrt
              cases hcase : (processLoop C f1 (ve + 1) ve).1 with
              | nil => rw [hcase] at hrt; exact absurd hrt (by simp)
              | cons c0 t0 =>
                rw [hcase, List.take_succ_cons, List.take_zero] at hrt
                injection hrt with hc0 htl0
                exact ⟨t0, by rw [hc0]⟩
            obtain ⟨t0, ht0⟩ := hrc
            have hclose : quoteClose (R ++ (processLoop C f1 (ve + 1) ve).1) false =
                some R.length := by
              rw [quoteClose_append_run _ _ _ _ hqR, ht0, quoteClose,
                if_pos (by decide)]
              simp
            have hpe : parseValueAt (pre ++ (sliceOf C cursor vs ++ R ++
                (processLoop C f1 (ve + 1) ve).1))
                (fs - i + (pre.length + (i - cursor)))
                (vs - i + (pre.length + (i - cursor))) '"' =
                some (fs - i + (pre.length + (i - cursor)),
                  vs - i + (pre.length + (i - cursor)),
                  vs - i + (pre.length + (i - cursor)) + R.length, '"',
                  sliceOf (pre ++ (sliceOf C cursor vs ++ R ++
                    (processLoop C f1 (ve + 1) ve).1))
                    (vs - i + (pre.length + (i - cursor)))
                    (vs - i + (pre.length + (i - cursor)) + R.length)) := by
              rw [parseValueAt, if_neg (by decide), hdT, hclose]
            have hvR : sliceOf (pre ++ (sliceOf C cursor vs ++ R ++
                (processLoop C f1 (ve + 1) ve).1))
                (vs - i + (pre.length + (i - cursor)))
                (vs - i + (pre.length + (i - cursor)) + R.length) = R := by
              rw [sliceOf, Nat.add_sub_cancel_left, hdT]
              exact List.take_left' rfl
            have htr2 : transform_author_value_if_needed R = none := by
              rw [hR]
              exact transform_append_others_none _
            have hstab : findAuthorF (pre ++ (sliceOf C cursor vs ++ R ++
                (processLoop C f1 (ve + 1) ve).1))
                ((pre ++ (sliceOf C cursor vs ++ R ++
                  (processLoop C f1 (ve + 1) ve).1)).length + 1)
                (pre.length + (i - cursor)) =
                findAuthorF (pre ++ (sliceOf C cursor vs ++ R ++
                  (processLoop C f1 (ve + 1) ve).1))
                  (C.length + 1) (pre.length + (i - cursor)) := by
              apply findAuthorF_stable
              · omega
              · rw [List.length_append]
                omega
            have hfT : find_next_author_field (pre ++ (sliceOf C cursor vs ++ R ++
                (processLoop C f1 (ve + 1) ve).1)) (pre.length + (i - cursor)) =
                some (fs - i + (pre.length + (i - cursor)),
                  vs - i + (pre.length + (i - cursor)),
                  vs - i + (pre.length + (i - cursor)) + R.length, '"',
                  sliceOf (pre ++ (sliceOf C cursor vs ++ R ++
                    (processLoop C f1 (ve + 1) ve).1))
                    (vs - i + (pre.length + (i - cursor)))
                    (vs - i + (pre.length + (i - cursor)) + R.length)) := by
              rw [find_next_author_field, hstab, happ, hpe]
            rw [processLoop]
            simp only [hfT, hvR, htr2]
            have hassoc : pre ++ (sliceOf C cursor vs ++ R ++
                (processLoop C f1 (ve + 1) ve).1) =
                (pre ++ sliceOf C cursor vs ++ R) ++ (processLoop C f1 (ve + 1) ve).1 := by
              simp [List.append_assoc]
            rw [hassoc]
            rw [show vs - i + (pre.length + (i - cursor)) + R.length + 1 =
              (pre ++ sliceOf C cursor vs ++ R).length + (ve + 1 - ve) from by
                simp only [List.length_append, hslen]
                omega]
            exact ih (ve + 1) ve (pre ++ sliceOf C cursor vs ++ R) (by omega)
              (fun heq => absurd heq (by omega)) (by omega) f2 qcur

/-- C7: the author-collapse pass is idempotent — running `process_bibtex` on
the first component of its own output returns that text unchanged with a
modification count of zero (every rewritten value ends in `" and others"`
and therefore satisfies the already-collapsed predicate on the second run). -/
theorem claim_C7 (content : List Char) :
    process_bibtex (process_bibtex content).1 = ((process_bibtex content).1, 0) := by
  have h := @processLoop_idem content (content.length + 1) 0 0 [] le_rfl
    (fun _ => ⟨rfl, rfl⟩) (by omega)
    ((processLoop content (content.length + 1) 0 0).1.length + 1) 0
  rw [List.nil_append] at h
  simp only [List.length_nil, Nat.sub_zero, Nat.add_zero, Nat.zero_add,
    List.drop_zero] at h
  simp only [process_bibtex]
  exact h
